import Mathlib

/-!
Verification of the WinSyncPy synchronization engine.

This file gives a shallow embedding of the two synchronization engines of
the repository: the CLI engine (src/CLI/cmdsync.py) and the GUI engine
(src/GUI/winsync.py), and settles the frozen claims about them.

Modelling conventions:
- relative paths are lists of name components;
- file metadata (size, modification time) is exact: sizes are naturals,
  modification times are rationals (the source stores float seconds);
- file content is a list of bytes, carried so that content-independence of
  the planner can be stated; the planner never reads it, exactly as the
  source planner only calls os.stat;
- exclusion patterns are abstract Boolean predicates on paths, matching the
  ExclusionFilter collaborator contract (glob matching itself is a
  library call outside the engine source);
- the fallible filesystem operations (shutil.copy2, os.remove, hash
  verification) are driven by explicit fault schedules, so that the retry
  loops can be analysed for every possible failure pattern.
-/
/-- A path relative to a sync root, as a list of name components. -/
abbrev RelPath := List String

/-- Metadata and data of one file as the engines see it: size and mtime come
from os.stat, the content is the byte data read by shutil.copy2. -/
structure FileEntry where
  size : Nat
  mtime : ℚ
  content : List Nat
  deriving DecidableEq, Repr

/-- Prefix order on relative paths: a leads to b when b is inside the
subtree rooted at a (or equal to a). -/
def leadsTo (a b : RelPath) : Prop := ∃ t, a ++ t = b

/-- Boolean version of leadsTo, used by the executable directory-emptiness
test of the mirror pruning sweep. -/
def leadsToB : RelPath → RelPath → Bool
  | [], _ => true
  | _, [] => false
  | x :: xs, y :: ys => decide (x = y) && leadsToB xs ys

/- ======================================================================
   CLI engine model (src/CLI/cmdsync.py)

   The CLI engine catalogs only files (Path.rglob with is_file), keyed by
   relative path.  An FS value is the snapshot of one directory tree:
   its files with metadata, plus the set of directories present (the
   directory part only matters for the mirror-mode empty-directory
   pruning sweep and for stating catalog convergence).
   ====================================================================== -/
/-- Snapshot of one directory tree as the CLI engine sees it. -/
structure FS where
  files : List (RelPath × FileEntry)
  dirs : List RelPath

/-- Sync mode of NTFSSync. -/
inductive Mode where
  | update
  | mirror
  deriving DecidableEq, Repr

/-- An exclusion pattern, as the abstract ExclusionFilter predicate over the
relative path (cmdsync.py applies Path.match to the relative path). -/
abbrev Pattern := RelPath → Bool

/-- matches_any_pattern of cmdsync.py: true when any pattern matches. -/
def matches_any_pattern (pats : List Pattern) (p : RelPath) : Bool :=
  pats.any (fun pat => pat p)

/-- get_file_info of cmdsync.py: reads exactly (st_size, st_mtime); the
content is not consulted. -/
def get_file_info (e : FileEntry) : Nat × ℚ := (e.size, e.mtime)

/-- Dictionary lookup on a catalog (python dict keyed by relative path). -/
def lookupFile : List (RelPath × FileEntry) → RelPath → Option FileEntry
  | [], _ => none
  | e :: l, p => if e.1 = p then some e.2 else lookupFile l p

/-- The file catalog one side contributes to compare_directories: all
files whose relative path matches no exclusion pattern. -/
def catalogFiles (files : List (RelPath × FileEntry)) (pats : List Pattern) :
    List (RelPath × FileEntry) :=
  files.filter (fun e => !matches_any_pattern pats e.1)

/-- The size and mtime comparison of compare_directories:
src_size != dst_size or abs(src_mtime - dst_mtime) > mtime_tolerance. -/
def fileDiffers (tol : ℚ) (se de : FileEntry) : Bool :=
  let (src_size, src_mtime) := get_file_info se
  let (dst_size, dst_mtime) := get_file_info de
  decide (src_size ≠ dst_size) || decide (tol < |src_mtime - dst_mtime|)

/-- The changed_files list built by NTFSSync.compare_directories: every
non-excluded source file that is absent from the (filtered) destination
catalog or whose (size, mtime) differ beyond the tolerance.  Each entry
keeps the source metadata, which the copy phase will transfer. -/
def changed_files (tol : ℚ) (pats : List Pattern) (src dst : FS) :
    List (RelPath × FileEntry) :=
  (catalogFiles src.files pats).filter (fun e =>
    match lookupFile (catalogFiles dst.files pats) e.1 with
    | none => true
    | some de => fileDiffers tol e.2 de)

/-- The deleted_files list built by NTFSSync.compare_directories: in mirror
mode, every non-excluded destination file absent from the (filtered)
source catalog; in update mode the list is never populated. -/
def deleted_files (mode : Mode) (pats : List Pattern) (src dst : FS) :
    List RelPath :=
  if mode = Mode.mirror then
    ((catalogFiles dst.files pats).filter
      (fun e => (lookupFile (catalogFiles src.files pats) e.1).isNone)).map Prod.fst
  else []

/- ======================================================================
   CLI apply phase (NTFSSync.run_sync with all operations succeeding)

   sync_file copies each changed file: os.makedirs creates the missing
   parent directories, then safe_copy_file_with_retry transfers data and
   metadata (shutil.copy2 preserves size, mtime and content).  The delete
   loop removes each deleted_files path, and in mirror mode a final sweep
   removes the destination directories that are empty, children first
   (os.walk with topdown False).
   ====================================================================== -/
/-- Overwrite (or create) one destination file, as one successful
safe_copy_file_with_retry commit does. -/
def setFile (l : List (RelPath × FileEntry)) (p : RelPath) (e : FileEntry) :
    List (RelPath × FileEntry) :=
  l.filter (fun x => !decide (x.1 = p)) ++ [(p, e)]

/-- The copy phase: every changed file is written with the source data and
metadata. -/
def applyCopies (files : List (RelPath × FileEntry))
    (changed : List (RelPath × FileEntry)) : List (RelPath × FileEntry) :=
  changed.foldl (fun fs e => setFile fs e.1 e.2) files

/-- The proper ancestors of a path, created by os.makedirs before a copy. -/
def parentDirs (p : RelPath) : List RelPath :=
  (List.range p.length).tail.map (fun i => p.take i)

/-- Directory set after the copy phase: os.makedirs has created every
missing ancestor of every copied file. -/
def applyMkdirs (dirs : List RelPath) (changed : List (RelPath × FileEntry)) :
    List RelPath :=
  (dirs ++ changed.flatMap (fun e => parentDirs e.1)).dedup

/-- Insertion step for ordering directories deepest first, modelling the
children-before-parents order in which os.walk with topdown False lists
the destination directories for the pruning sweep. -/
def insertByLen (d : RelPath) : List RelPath → List RelPath
  | [] => [d]
  | x :: xs => if x.length ≤ d.length then d :: x :: xs else x :: insertByLen d xs

/-- Deepest-first ordering of the collected directory list. -/
def sortLenDesc (l : List RelPath) : List RelPath := l.foldr insertByLen []

/-- The emptiness probe of the pruning sweep (any(dir_path.iterdir())):
a directory is empty when no remaining file and no remaining directory
lies strictly inside it. -/
def dirIsEmpty (files : List (RelPath × FileEntry)) (dirs : List RelPath)
    (d : RelPath) : Bool :=
  !(files.any (fun e => leadsToB d e.1 && !decide (e.1 = d)) ||
    dirs.any (fun q => leadsToB d q && !decide (q = d)))

/-- The mirror-mode pruning sweep: visit every destination directory,
children before parents, and remove it when empty at visit time. -/
def pruneDirs (files : List (RelPath × FileEntry)) (dirs : List RelPath) :
    List RelPath :=
  (sortLenDesc dirs).foldl
    (fun surv d => if dirIsEmpty files surv d then surv.erase d else surv) dirs

/-- NTFSSync.run_sync on a filesystem snapshot, with every copy and delete
succeeding and no file locked: compare_directories, then the copy phase,
then the delete phase (mirror only: deleted_files is empty otherwise),
then the mirror-only empty-directory pruning sweep. -/
def run_sync_fs (mode : Mode) (tol : ℚ) (pats : List Pattern) (src dst : FS) : FS :=
  let changed := changed_files tol pats src dst
  let deleted := deleted_files mode pats src dst
  let files1 := applyCopies dst.files changed
  let dirs1 := applyMkdirs dst.dirs changed
  let files2 := files1.filter (fun e => !decide (e.1 ∈ deleted))
  let dirs2 := if mode = Mode.mirror then pruneDirs files2 dirs1 else dirs1
  { files := files2, dirs := dirs2 }

/- ======================================================================
   Claim-level notions and concrete example snapshots
   ====================================================================== -/
/-- Catalog equality modulo the modification-time tolerance, per path:
both sides absent, or both present with equal size and mtimes within the
tolerance. -/
def metaClose (tol : ℚ) : Option FileEntry → Option FileEntry → Prop
  | none, none => True
  | some se, some de => se.size = de.size ∧ |se.mtime - de.mtime| ≤ tol
  | _, _ => False

/-- Modelled from the spec: the Catalog of section 3 also carries
directory entries (kind Directory); the CLI engine catalogs files only,
so the directory part of the spec Catalog is taken from the dirs
component of the snapshot, under the same exclusion filters. -/
def catalogDirs (dirs : List RelPath) (pats : List Pattern) : List RelPath :=
  dirs.filter (fun d => !matches_any_pattern pats d)

/-- Modelled from the spec: Catalog(destination) with the same exclusion
filters equals Catalog(source) with the same filters (modulo tolerance on
mod-times), including directory entries. -/
def specCatalogsConverge (tol : ℚ) (pats : List Pattern) (src dst : FS) : Prop :=
  (∀ p, metaClose tol (lookupFile (catalogFiles src.files pats) p)
      (lookupFile (catalogFiles dst.files pats) p)) ∧
  ∀ d, (d ∈ catalogDirs src.dirs pats ↔ d ∈ catalogDirs dst.dirs pats)

/-- Example file of five bytes. -/
def entA : FileEntry := { size := 5, mtime := 0, content := [1, 2, 3, 4, 5] }

/-- Example file of twelve bytes. -/
def entC12 : FileEntry := { size := 12, mtime := 0, content := List.replicate 12 7 }

/-- Example file of ten bytes at the same path and mtime. -/
def entC10 : FileEntry := { size := 10, mtime := 0, content := List.replicate 10 7 }

/-- Source holding a single file a.txt. -/
def fsSrcA : FS := { files := [(["a.txt"], entA)], dirs := [] }

/-- Empty destination tree. -/
def fsEmpty : FS := { files := [], dirs := [] }

/-- A tree holding exactly one empty directory d. -/
def fsDirD : FS := { files := [], dirs := [["d"]] }

/-- Exclusion pattern matching exactly the path junk.tmp. -/
def patTmp : Pattern := fun p => decide (p = ["junk.tmp"])

/-- Source holding only the excluded file junk.tmp. -/
def fsSrcTmp : FS := { files := [(["junk.tmp"], entA)], dirs := [] }

/-- Destination holding a stale copy of the excluded file junk.tmp. -/
def fsDstTmp : FS := { files := [(["junk.tmp"], entC10)], dirs := [] }

/-- Source with b.txt of size twelve. -/
def fsB12 : FS := { files := [(["b.txt"], entC12)], dirs := [] }

/-- Destination with b.txt of size ten. -/
def fsB10 : FS := { files := [(["b.txt"], entC10)], dirs := [] }

/- ======================================================================
   CLI executor model: retryable copy with temporary file, retryable
   delete, lock probe, per-file dispatch (cmdsync.py)

   The fallible operations are driven by explicit fault schedules.  One
   attempt of safe_copy_file_with_retry can fail in shutil.copy2 (an
   interrupted write leaves a truncated byte sequence in the temporary file), in
   the hash verification (raised as OSError after a complete temporary
   copy), or fatally in the generic exception handler (which gives up at
   once).  The ACL and ADS hooks (copy_ntfs_acl, copy_ntfs_ads) catch all
   their exceptions internally and never fail an attempt.  After any
   failure the temporary file is unlinked if it exists; the unlink itself
   may fail and is then ignored (unlinkOk).
   ====================================================================== -/
/-- Destination-side filesystem state around one copy: content of the
final destination path and of the temporary sibling, if present. -/
structure CopyFS where
  dest : Option (List Nat)
  temp : Option (List Nat)
  deriving DecidableEq, Repr

/-- Fault-schedule entry for one attempt of safe_copy_file_with_retry. -/
inductive CopyOutcome where
  | copyFail (written : Option (List Nat)) (unlinkOk : Bool)
  | verifyFail (unlinkOk : Bool)
  | fatalFail (written : Option (List Nat)) (unlinkOk : Bool)
  | ok
  deriving DecidableEq, Repr

/-- The error cleanup of safe_copy_file_with_retry: if the temporary file
exists, try to unlink it; an unlink failure is logged and ignored. -/
def cleanupTemp (s : CopyFS) (unlinkOk : Bool) : CopyFS :=
  if s.temp.isSome && unlinkOk then { s with temp := none } else s

/-- One attempt of the retry loop: states visited (after each filesystem
mutation), end state, success flag, fatal flag (the generic exception
handler returns immediately instead of retrying). -/
def attemptStep (src : List Nat) (s : CopyFS) :
    CopyOutcome → List CopyFS × CopyFS × Bool × Bool
  | .copyFail written uok =>
    let s1 : CopyFS := { s with temp := written }
    let s2 := cleanupTemp s1 uok
    ([s1, s2], s2, false, false)
  | .verifyFail uok =>
    let s1 : CopyFS := { s with temp := some src }
    let s2 := cleanupTemp s1 uok
    ([s1, s2], s2, false, false)
  | .fatalFail written uok =>
    let s1 : CopyFS := { s with temp := written }
    let s2 := cleanupTemp s1 uok
    ([s1, s2], s2, false, true)
  | .ok =>
    let s1 : CopyFS := { s with temp := some src }
    let s2 : CopyFS := { dest := some src, temp := none }
    ([s1, s2], s2, true, false)

/-- Transient outcomes are retried; the fatal one and success are not. -/
def CopyOutcome.isTransient : CopyOutcome → Bool
  | .copyFail _ _ => true
  | .verifyFail _ => true
  | _ => false

/-- Aggregate result of one safe_copy_file_with_retry call. -/
structure CopyRun where
  states : List CopyFS
  final : CopyFS
  success : Bool
  delays : List ℚ
  attempts : Nat
  deriving Repr

/-- The attempt loop of safe_copy_file_with_retry: attempt is the loop
index, rem the remaining iterations of range(max_retries).  A failed
attempt that is not the last sleeps initial_delay * backoff_factor **
attempt and retries. -/
def copyLoop (src : List Nat) (outcomes : Nat → CopyOutcome) (initD bf : ℚ) :
    Nat → Nat → CopyFS → CopyRun
  | _, 0, s => { states := [], final := s, success := false, delays := [], attempts := 0 }
  | attempt, rem + 1, s =>
    let step := attemptStep src s (outcomes attempt)
    if step.2.2.1 then
      { states := step.1, final := step.2.1, success := true, delays := [], attempts := 1 }
    else if step.2.2.2 then
      { states := step.1, final := step.2.1, success := false, delays := [], attempts := 1 }
    else if rem = 0 then
      { states := step.1, final := step.2.1, success := false, delays := [], attempts := 1 }
    else
      let r := copyLoop src outcomes initD bf (attempt + 1) rem step.2.1
      { states := step.1 ++ r.states, final := r.final, success := r.success,
        delays := initD * bf ^ attempt :: r.delays, attempts := r.attempts + 1 }

/-- safe_copy_file_with_retry of cmdsync.py, over a fault schedule. -/
def safe_copy_file_with_retry (src : List Nat) (outcomes : Nat → CopyOutcome)
    (max_retries : Nat) (initial_delay backoff_factor : ℚ) (s : CopyFS) : CopyRun :=
  copyLoop src outcomes initial_delay backoff_factor 0 max_retries s

/-- Aggregate result of one safe_remove_with_retry call. -/
structure RemoveRun where
  success : Bool
  delays : List ℚ
  attempts : Nat
  deriving Repr

/-- The attempt loop of safe_remove_with_retry: os.remove either succeeds
or raises (faults attempt); a failed attempt that is not the last sleeps
initial_delay * backoff_factor ** attempt and retries. -/
def removeLoop (faults : Nat → Bool) (initD bf : ℚ) : Nat → Nat → RemoveRun
  | _, 0 => { success := false, delays := [], attempts := 0 }
  | attempt, rem + 1 =>
    if faults attempt then
      if rem = 0 then { success := false, delays := [], attempts := 1 }
      else
        let r := removeLoop faults initD bf (attempt + 1) rem
        { success := r.success, delays := initD * bf ^ attempt :: r.delays,
          attempts := r.attempts + 1 }
    else { success := true, delays := [], attempts := 1 }

/-- safe_remove_with_retry of cmdsync.py, over a fault schedule. -/
def safe_remove_with_retry (faults : Nat → Bool) (max_retries : Nat)
    (initial_delay backoff_factor : ℚ) : RemoveRun :=
  removeLoop faults initial_delay backoff_factor 0 max_retries

/-- The recording step of the run_sync delete loop: a failed delete is
appended to error_files, a successful one is not. -/
def recordRemove (p : RelPath) (success : Bool) (errors : List RelPath) : List RelPath :=
  if success then errors else errors ++ [p]

/-- Accessibility state of a source file, as seen by the open probe. -/
structure SrcFile where
  is_file : Bool
  readable : Bool
  writable : Bool
  heldExclusive : Bool
  deriving DecidableEq, Repr

/-- Result of open(filepath, "r+b"): Python opens an existing file for
reading and writing, so it needs the path to be a file with both read and
write access, not exclusively held by another process. -/
def openReadWrite (f : SrcFile) : Bool :=
  f.is_file && f.readable && f.writable && !f.heldExclusive

/-- is_file_locked of cmdsync.py: true exactly when the open probe with
mode r+b raises IOError or OSError. -/
def is_file_locked (f : SrcFile) : Bool := !openReadWrite f

/-- The per-run accumulators of NTFSSync touched by sync_file. -/
structure SyncState where
  locked_files : List RelPath
  error_files : List RelPath
  copyCalls : List RelPath
  deriving DecidableEq, Repr

/-- sync_file of NTFSSync: skip when the source is not a file, append to
locked_files and return before any copy when the lock probe fails, do
nothing further on a dry run, otherwise invoke the retryable copy
(recorded in copyCalls) and append to error_files when it reports
failure. -/
def sync_file (dry_run : Bool) (copyOk : RelPath → Bool) (p : RelPath)
    (f : SrcFile) (st : SyncState) : SyncState :=
  if !f.is_file then st
  else if is_file_locked f then { st with locked_files := st.locked_files ++ [p] }
  else if dry_run then st
  else
    let st1 := { st with copyCalls := st.copyCalls ++ [p] }
    if copyOk p then st1
    else { st1 with error_files := st1.error_files ++ [p] }

/-- The copy dispatch of run_sync: every changed file goes through
sync_file (the thread pool joins on all of them; the accumulator order
here is the submission order). -/
def runCopyPhase (dry_run : Bool) (copyOk : RelPath → Bool)
    (files : List (RelPath × SrcFile)) (st : SyncState) : SyncState :=
  files.foldl (fun s e => sync_file dry_run copyOk e.1 e.2 s) st

/- ======================================================================
   GUI engine model (src/GUI/winsync.py)

   analyze_sync walks the source tree top down (os.walk), pruning
   excluded directories, and emits create_dir and copy_file actions;
   in mirror mode it then walks the destination tree bottom up
   (os.walk with topdown False, no pruning) and emits delete_file and
   delete_dir actions for non-excluded entries without a source
   counterpart.  match_filter is applied to the absolute path, so the
   filter argument here receives root ++ relative path.
   ====================================================================== -/
/-- A directory tree: named subdirectories and named files. -/
inductive FSTree where
  | node (dirs : List (String × FSTree)) (files : List (String × FileEntry))
  deriving Repr

/-- Subtree at a relative path. -/
def FSTree.findDir : FSTree → RelPath → Option FSTree
  | t, [] => some t
  | .node dirs _, n :: rest =>
    match dirs.find? (fun d => decide (d.1 = n)) with
    | some d => d.2.findDir rest
    | none => none

/-- File entry at a relative path (os.stat of a regular file). -/
def FSTree.findFileEntry : FSTree → RelPath → Option FileEntry
  | _, [] => none
  | .node _ files, [n] => (files.find? (fun fl => decide (fl.1 = n))).map (fun fl => fl.2)
  | .node dirs _, n :: rest =>
    match dirs.find? (fun d => decide (d.1 = n)) with
    | some d => d.2.findFileEntry rest
    | none => none

/-- os.path.exists: a directory or a file is present at the path. -/
def FSTree.existsAt (t : FSTree) (p : RelPath) : Bool :=
  (t.findDir p).isSome || (t.findFileEntry p).isSome

/-- The action tuples built by analyze_sync (loosely typed tuples in the
source; deletes carry None as destination). -/
inductive SyncAction where
  | create_dir (src dst : RelPath)
  | copy_file (src dst : RelPath)
  | delete_file (path : RelPath)
  | delete_dir (path : RelPath)
  deriving DecidableEq, Repr

/-- should_copy of winsync.py: size differs or mtimes differ by more than
one second (fixed tolerance). -/
def should_copy (src_stat dst_stat : FileEntry) : Bool :=
  decide (src_stat.size ≠ dst_stat.size) ||
    decide ((1 : ℚ) < |src_stat.mtime - dst_stat.mtime|)

mutual
/-- The source walk of analyze_sync at one root: excluded names are
pruned from both lists, each surviving directory missing from the
destination yields create_dir, each surviving file yields copy_file when
absent from the destination or when should_copy holds against the
destination stat, then the walk descends into the surviving
subdirectories in order (os.walk top down).  When the destination path of
a file is occupied by a directory the source engine would stat that
directory; that degenerate corner is modelled as emitting no action. -/
def copyPhase (dst : FSTree) (filt : RelPath → Bool) (srcRoot dstRoot : RelPath) :
    RelPath → FSTree → List SyncAction
  | rel, .node dirs files =>
    let dirs2 := dirs.filter (fun d => !filt (srcRoot ++ rel ++ [d.1]))
    let files2 := files.filter (fun fl => !filt (srcRoot ++ rel ++ [fl.1]))
    (dirs2.filterMap (fun d =>
      if dst.existsAt (rel ++ [d.1]) then none
      else some (SyncAction.create_dir (srcRoot ++ rel ++ [d.1]) (dstRoot ++ rel ++ [d.1])))) ++
    (files2.filterMap (fun fl =>
      match dst.findFileEntry (rel ++ [fl.1]) with
      | some dst_stat =>
        if should_copy fl.2 dst_stat then
          some (SyncAction.copy_file (srcRoot ++ rel ++ [fl.1]) (dstRoot ++ rel ++ [fl.1]))
        else none
      | none =>
        if dst.existsAt (rel ++ [fl.1]) then none
        else some (SyncAction.copy_file (srcRoot ++ rel ++ [fl.1]) (dstRoot ++ rel ++ [fl.1])))) ++
    copyPhaseList dst filt srcRoot dstRoot rel dirs
/-- Descent of the source walk over a list of subdirectories: the walk
descends only into subdirectories that survive the pruning filter
(equivalent to iterating over the pruned dirs list). -/
def copyPhaseList (dst : FSTree) (filt : RelPath → Bool) (srcRoot dstRoot : RelPath) :
    RelPath → List (String × FSTree) → List SyncAction
  | _, [] => []
  | rel, (n, t) :: rest =>
    (if !filt (srcRoot ++ rel ++ [n]) then
      copyPhase dst filt srcRoot dstRoot (rel ++ [n]) t
    else []) ++
    copyPhaseList dst filt srcRoot dstRoot rel rest
end

mutual
/-- The destination walk of the mirror deletion pass: os.walk with
topdown False visits all subtrees first (in order) and then the root,
where files are handled before directories; a non-excluded entry with no
source counterpart (os.path.exists on the equivalent source path) yields
a delete action. -/
def deletePhase (srcExists : RelPath → Bool) (filt : RelPath → Bool) (dstRoot : RelPath) :
    RelPath → FSTree → List SyncAction
  | rel, .node dirs files =>
    deletePhaseList srcExists filt dstRoot rel dirs ++
    (files.filterMap (fun fl =>
      if !filt (dstRoot ++ rel ++ [fl.1]) && !srcExists (rel ++ [fl.1]) then
        some (SyncAction.delete_file (dstRoot ++ rel ++ [fl.1]))
      else none)) ++
    (dirs.filterMap (fun d =>
      if !filt (dstRoot ++ rel ++ [d.1]) && !srcExists (rel ++ [d.1]) then
        some (SyncAction.delete_dir (dstRoot ++ rel ++ [d.1]))
      else none))
/-- Bottom-up visit over a list of subdirectories. -/
def deletePhaseList (srcExists : RelPath → Bool) (filt : RelPath → Bool) (dstRoot : RelPath) :
    RelPath → List (String × FSTree) → List SyncAction
  | _, [] => []
  | rel, d :: rest =>
    deletePhase srcExists filt dstRoot (rel ++ [d.1]) d.2 ++
    deletePhaseList srcExists filt dstRoot rel rest
end

/-- analyze_sync of winsync.py: the source walk, then in mirror mode the
deletion walk of the destination. -/
def analyze_sync (mode : Mode) (filt : RelPath → Bool) (srcRoot dstRoot : RelPath)
    (src dst : FSTree) : List SyncAction :=
  copyPhase dst filt srcRoot dstRoot [] src ++
  (if mode = Mode.mirror then
    deletePhase (fun r => src.existsAt r) filt dstRoot [] dst
  else [])

mutual
/-- Wellformedness of a tree snapshot: sibling directory names are
distinct at every level (as on a real filesystem). -/
def FSTree.wfB : FSTree → Bool
  | .node dirs _ => decide ((dirs.map Prod.fst).Nodup) && FSTree.wfListB dirs
/-- Wellformedness of every subtree of a directory list. -/
def FSTree.wfListB : List (String × FSTree) → Bool
  | [] => true
  | d :: rest => d.2.wfB && FSTree.wfListB rest
end

/-- Deletion actions of a plan. -/
def SyncAction.isDelete : SyncAction → Bool
  | .delete_file _ => true
  | .delete_dir _ => true
  | _ => false

/-- The path of a delete_dir action, none for other actions. -/
def SyncAction.delDirPath : SyncAction → Option RelPath
  | .delete_dir p => some p
  | _ => none

/-- Ordering invariant part one: once a delete action has appeared, every
later action is also a delete (all create/copy precede all deletes). -/
def phaseOrdered (l : List SyncAction) : Prop :=
  l.Pairwise (fun a b => a.isDelete = true → b.isDelete = true)

/-- The deepest-first relation between two plan positions: an earlier
delete_dir is never a strict ancestor of a later one. -/
def ddOrd (a b : SyncAction) : Prop :=
  ∀ x y, a.delDirPath = some x → b.delDirPath = some y → ¬(leadsTo x y ∧ x ≠ y)

/-- Ordering invariant part two: a delete_dir action is never followed by
a delete_dir of a strict descendant directory (children first). -/
def deleteDirsDeepestFirst (l : List SyncAction) : Prop :=
  l.Pairwise ddOrd

/-- The CLI plan as one ordered action list: run_sync performs all copies
(changed_files), then all deletes (deleted_files); it plans no directory
actions. -/
def cli_plan (mode : Mode) (tol : ℚ) (pats : List Pattern) (src dst : FS) : List SyncAction :=
  (changed_files tol pats src dst).map (fun e => SyncAction.copy_file e.1 e.1) ++
  (deleted_files mode pats src dst).map (fun p => SyncAction.delete_file p)

/- ======================================================================
   GUI apply model for one copy_file action (apply_sync of winsync.py)
   ====================================================================== -/
/-- The copy_file branch of apply_sync: shutil.copy2 writes straight to
the destination path (no temporary file).  Opening the destination with
mode wb first truncates it; a fault value of some w models an interrupted
copy that has written only the initial bytes w of the source.  The list is
the destination content after each mutation. -/
def gui_apply_copy_file (src : List Nat) (fault : Option (List Nat)) :
    List (Option (List Nat)) :=
  match fault with
  | some w => [some [], some w]
  | none => [some [], some src]

/-- The atomic-commit property claimed for every CopyFile execution: at
every observable point the destination is absent, still holds its
pre-sync content, or already holds the complete source content. -/
def atomicBeforeCommit (preSync : Option (List Nat)) (src : List Nat)
    (states : List (Option (List Nat))) : Prop :=
  ∀ d ∈ states, d = preSync ∨ d = none ∨ d = some src

/-- Fault schedule for the witness: the first attempt fails midway through
the copy (one byte written to the temporary file), the second succeeds. -/
def faultThenOk : Nat → CopyOutcome :=
  fun i => if i = 0 then CopyOutcome.copyFail (some [1]) true else CopyOutcome.ok

/-- Fault schedule for the witness: os.remove fails on the first two
attempts. -/
def wFaults : Nat → Bool := fun i => decide (i < 2)

/-- Copy fault schedule for the witness: the first two attempts fail in
shutil.copy2, the third succeeds. -/
def wOutcomes : Nat → CopyOutcome :=
  fun i => if i < 2 then CopyOutcome.copyFail none true else CopyOutcome.ok

/-- A file exclusively held open by another process. -/
def lockedF : SrcFile :=
  { is_file := true, readable := true, writable := true, heldExclusive := true }

/-- An ordinary accessible file. -/
def freeF : SrcFile :=
  { is_file := true, readable := true, writable := true, heldExclusive := false }

/-- A write-protected (read-only) file held by nobody. -/
def readOnlyF : SrcFile :=
  { is_file := true, readable := true, writable := false, heldExclusive := false }

/-- The empty accumulator state. -/
def st0 : SyncState := { locked_files := [], error_files := [], copyCalls := [] }

/-- A destination tree with a nested directory chain and one file, used
to exercise the ordering invariant. -/
def treeDst : FSTree :=
  .node [("a", .node [("b", .node [] [])] [])] [("f.txt", entA)]

/-- The empty tree. -/
def treeEmpty : FSTree := .node [] []

theorem leadsToB_iff (a b : RelPath) : leadsToB a b = true ↔ leadsTo a b := by
  induction a generalizing b with
  | nil => simp [leadsToB, leadsTo]
  | cons x xs ih =>
    cases b with
    | nil => simp [leadsToB, leadsTo]
    | cons y ys =>
      simp only [leadsToB, Bool.and_eq_true, decide_eq_true_eq, ih, leadsTo]
      constructor
      · rintro ⟨rfl, t, rfl⟩; exact ⟨t, rfl⟩
      · rintro ⟨t, h⟩
        cases h
        exact ⟨rfl, t, rfl⟩

theorem leadsTo_refl (a : RelPath) : leadsTo a a := ⟨[], by simp⟩

theorem leadsTo_length {a b : RelPath} (h : leadsTo a b) : a.length ≤ b.length := by
  obtain ⟨t, rfl⟩ := h; simp

theorem leadsTo_length_lt {a b : RelPath} (h : leadsTo a b) (hne : a ≠ b) :
    a.length < b.length := by
  obtain ⟨t, rfl⟩ := h
  cases t with
  | nil => simp at hne
  | cons u us => simp

theorem leadsTo_snoc_same {p : RelPath} {n m : String} {q : RelPath}
    (h1 : leadsTo (p ++ [n]) q) (h2 : leadsTo (p ++ [m]) q) : n = m := by
  obtain ⟨t, ht⟩ := h1
  obtain ⟨s, hs⟩ := h2
  rw [← hs] at ht
  simp only [List.append_assoc, List.append_cancel_left_eq] at ht
  simpa using congrArg (fun l => l.head?) ht

/- Lookup lemmas for the catalog dictionaries. -/
theorem lookupFile_append (l₁ l₂ : List (RelPath × FileEntry)) (p : RelPath) :
    lookupFile (l₁ ++ l₂) p =
      match lookupFile l₁ p with
      | some e => some e
      | none => lookupFile l₂ p := by
  induction l₁ with
  | nil => simp [lookupFile]
  | cons e l ih =>
    by_cases h : e.1 = p <;> simp [lookupFile, h, ih]

theorem lookupFile_eq_none_iff (l : List (RelPath × FileEntry)) (p : RelPath) :
    lookupFile l p = none ↔ p ∉ l.map Prod.fst := by
  induction l with
  | nil => simp [lookupFile]
  | cons e l ih =>
    by_cases h : e.1 = p
    · subst h
      have hlk : lookupFile (e :: l) e.1 = some e.2 := by
        simp only [lookupFile, if_pos rfl, if_true]
      constructor
      · intro hc
        rw [hlk] at hc
        exact (Option.some_ne_none _ hc).elim
      · intro hc
        exact (hc (List.mem_map.mpr ⟨e, List.mem_cons_self e l, rfl⟩)).elim
    · have h' : ¬ p = e.1 := fun hc => h hc.symm
      simp only [lookupFile, if_neg h, ih, List.map_cons, List.mem_cons]
      tauto

theorem lookupFile_mem {l : List (RelPath × FileEntry)} {p : RelPath} {e : FileEntry}
    (h : lookupFile l p = some e) : (p, e) ∈ l := by
  induction l with
  | nil => simp [lookupFile] at h
  | cons x l ih =>
    by_cases hx : x.1 = p
    · simp only [lookupFile, hx, if_pos] at h
      cases h
      have hpe : (p, x.2) = x := by rw [← hx]
      exact hpe ▸ List.mem_cons_self x l
    · simp only [lookupFile, hx, if_neg, if_false] at h
      exact List.mem_cons_of_mem _ (ih h)

theorem lookupFile_of_mem {l : List (RelPath × FileEntry)} {p : RelPath} {e : FileEntry}
    (hnd : (l.map Prod.fst).Nodup) (h : (p, e) ∈ l) : lookupFile l p = some e := by
  induction l with
  | nil => simp at h
  | cons x l ih =>
    simp only [List.map_cons, List.nodup_cons] at hnd
    rcases List.mem_cons.mp h with h | h
    · cases h; simp [lookupFile]
    · have hx : x.1 ≠ p := by
        intro hc
        exact hnd.1 (hc ▸ (List.mem_map.mpr ⟨(p, e), h, rfl⟩))
      simp [lookupFile, hx, ih hnd.2 h]

theorem lookupFile_filter (q : RelPath × FileEntry → Bool)
    (l : List (RelPath × FileEntry)) (p : RelPath)
    (hnd : (l.map Prod.fst).Nodup) :
    lookupFile (l.filter q) p =
      (lookupFile l p).bind (fun e => if q (p, e) then some e else none) := by
  induction l with
  | nil => simp [lookupFile]
  | cons x l ih =>
    simp only [List.map_cons, List.nodup_cons] at hnd
    by_cases hx : x.1 = p
    · obtain ⟨x1, x2⟩ := x
      subst hx
      by_cases hq : q (x1, x2)
      · simp [List.filter, hq, lookupFile]
      · have : lookupFile (l.filter q) x1 = none := by
          rw [lookupFile_eq_none_iff]
          intro hc
          exact hnd.1 (by
            rcases List.mem_map.mp hc with ⟨e, he, rfl⟩
            exact List.mem_map.mpr ⟨e, List.mem_of_mem_filter he, rfl⟩)
        simp [List.filter, hq, lookupFile, this]
    · by_cases hq : q x <;> simp [List.filter, hq, lookupFile, hx, ih hnd.2]

theorem lookupFile_filter_key (pk : RelPath → Bool)
    (l : List (RelPath × FileEntry)) (p : RelPath) :
    lookupFile (l.filter (fun e => pk e.1)) p =
      if pk p then lookupFile l p else none := by
  induction l with
  | nil => simp [lookupFile]
  | cons x l ih =>
    by_cases hx : x.1 = p
    · subst hx
      by_cases hk : pk x.1 <;> simp [List.filter, hk, lookupFile, ih]
    · by_cases hk : pk x.1 <;> simp [List.filter, hk, lookupFile, hx, ih]

theorem lookupFile_catalogFiles (files : List (RelPath × FileEntry))
    (pats : List Pattern) (p : RelPath) :
    lookupFile (catalogFiles files pats) p =
      if matches_any_pattern pats p then none else lookupFile files p := by
  have h := lookupFile_filter_key (fun q => !matches_any_pattern pats q) files p
  rw [catalogFiles, h]
  by_cases hm : matches_any_pattern pats p <;> simp [hm]

theorem lookupFile_setFile (l : List (RelPath × FileEntry)) (p : RelPath)
    (e : FileEntry) (q : RelPath) :
    lookupFile (setFile l p e) q = if q = p then some e else lookupFile l q := by
  rw [setFile, lookupFile_append]
  by_cases h : q = p
  · subst h
    rw [lookupFile_filter_key (fun k => !decide (k = q)) l q]
    simp [lookupFile]
  · rw [if_neg h]
    have hq : (!decide (q = p)) = true := by simp [h]
    rw [lookupFile_filter_key (fun k => !decide (k = p)) l q, if_pos hq]
    cases hl : lookupFile l q with
    | some x => rfl
    | none =>
      have hp : ¬ p = q := fun hc => h hc.symm
      simp [lookupFile, hp]

theorem lookupFile_applyCopies (files changed : List (RelPath × FileEntry))
    (p : RelPath) (hnd : (changed.map Prod.fst).Nodup) :
    lookupFile (applyCopies files changed) p =
      match lookupFile changed p with
      | some e => some e
      | none => lookupFile files p := by
  induction changed generalizing files with
  | nil => simp [applyCopies, lookupFile]
  | cons c rest ih =>
    simp only [List.map_cons, List.nodup_cons] at hnd
    have step : applyCopies files (c :: rest) = applyCopies (setFile files c.1 c.2) rest := rfl
    rw [step, ih _ hnd.2]
    by_cases h : p = c.1
    · have hnone : lookupFile rest p = none := by
        rw [lookupFile_eq_none_iff, h]
        exact hnd.1
      have hcons : lookupFile (c :: rest) p = some c.2 := by
        have hc : c.1 = p := h.symm
        simp [lookupFile, hc]
      rw [hnone, hcons, lookupFile_setFile, if_pos h]
    · have hcons : lookupFile (c :: rest) p = lookupFile rest p := by
        have hc : ¬ c.1 = p := fun hc => h hc.symm
        simp [lookupFile, hc]
      rw [hcons, lookupFile_setFile, if_neg h]

theorem keys_setFile (l : List (RelPath × FileEntry)) (p : RelPath)
    (e : FileEntry) (q : RelPath) (h : q ∈ l.map Prod.fst) :
    q ∈ (setFile l p e).map Prod.fst := by
  by_cases hq : q = p
  · subst hq
    exact List.mem_map.mpr ⟨(q, e), List.mem_append_right _ (List.mem_singleton_self _), rfl⟩
  · rcases List.mem_map.mp h with ⟨x, hx, rfl⟩
    refine List.mem_map.mpr ⟨x, ?_, rfl⟩
    simp only [setFile, List.mem_append, List.mem_filter]
    exact Or.inl ⟨hx, by simpa using hq⟩

theorem keys_applyCopies (files changed : List (RelPath × FileEntry))
    (q : RelPath) (h : q ∈ files.map Prod.fst) :
    q ∈ (applyCopies files changed).map Prod.fst := by
  induction changed generalizing files with
  | nil => exact h
  | cons c rest ih =>
    exact ih (setFile files c.1 c.2) (keys_setFile files c.1 c.2 q h)

/- ======================================================================
   Per-path behaviour of run_sync_fs
   ====================================================================== -/
theorem nodup_keys_filter (l : List (RelPath × FileEntry)) (q : RelPath × FileEntry → Bool)
    (h : (l.map Prod.fst).Nodup) : ((l.filter q).map Prod.fst).Nodup := by
  have hsub : ((l.filter q).map Prod.fst).Sublist (l.map Prod.fst) :=
    (List.filter_sublist l).map Prod.fst
  exact h.sublist hsub

theorem nodup_keys_catalogFiles (files : List (RelPath × FileEntry)) (pats : List Pattern)
    (h : (files.map Prod.fst).Nodup) : ((catalogFiles files pats).map Prod.fst).Nodup :=
  nodup_keys_filter files _ h

theorem nodup_keys_changed_files (tol : ℚ) (pats : List Pattern) (src dst : FS)
    (h : (src.files.map Prod.fst).Nodup) :
    ((changed_files tol pats src dst).map Prod.fst).Nodup :=
  nodup_keys_filter _ _ (nodup_keys_catalogFiles src.files pats h)

theorem fileDiffers_false_iff (tol : ℚ) (se de : FileEntry) :
    fileDiffers tol se de = false ↔
      se.size = de.size ∧ |se.mtime - de.mtime| ≤ tol := by
  simp [fileDiffers, get_file_info, not_lt]

theorem fileDiffers_self (tol : ℚ) (htol : 0 ≤ tol) (se : FileEntry) :
    fileDiffers tol se se = false := by
  rw [fileDiffers_false_iff]
  simpa using htol

theorem mem_deleted_files_iff (mode : Mode) (pats : List Pattern) (src dst : FS)
    (p : RelPath) :
    p ∈ deleted_files mode pats src dst ↔
      mode = Mode.mirror ∧ p ∈ (catalogFiles dst.files pats).map Prod.fst ∧
        lookupFile (catalogFiles src.files pats) p = none := by
  cases mode with
  | update =>
    have hne : Mode.update ≠ Mode.mirror := fun hc => Mode.noConfusion hc
    rw [deleted_files, if_neg hne]
    constructor
    · intro hp
      exact absurd hp (List.not_mem_nil p)
    · rintro ⟨hc, -⟩
      exact absurd hc hne
  | mirror =>
    rw [deleted_files, if_pos rfl]
    constructor
    · intro hp
      rcases List.mem_map.mp hp with ⟨e, he, rfl⟩
      rcases List.mem_filter.mp he with ⟨he', hq⟩
      exact ⟨rfl, List.mem_map.mpr ⟨e, he', rfl⟩, Option.isNone_iff_eq_none.mp hq⟩
    · rintro ⟨-, hp, hnone⟩
      rcases List.mem_map.mp hp with ⟨e, he, rfl⟩
      refine List.mem_map.mpr ⟨e, List.mem_filter.mpr ⟨he, ?_⟩, rfl⟩
      exact Option.isNone_iff_eq_none.mpr hnone

theorem lookupFile_run_sync (mode : Mode) (tol : ℚ) (pats : List Pattern)
    (src dst : FS) (p : RelPath) :
    lookupFile (run_sync_fs mode tol pats src dst).files p =
      if p ∈ deleted_files mode pats src dst then none
      else lookupFile (applyCopies dst.files (changed_files tol pats src dst)) p := by
  have h := lookupFile_filter_key
    (fun k => !decide (k ∈ deleted_files mode pats src dst))
    (applyCopies dst.files (changed_files tol pats src dst)) p
  show lookupFile (List.filter _ _) p = _
  rw [h]
  by_cases hp : p ∈ deleted_files mode pats src dst <;> simp [hp]

/-- Per-path effect of a fully successful run on a source file: afterwards
the destination holds an entry whose metadata does not differ beyond the
tolerance (either the freshly copied source entry, or the previous
destination entry that was already within tolerance). -/
theorem lookup_run_sync_of_src (mode : Mode) (tol : ℚ) (pats : List Pattern)
    (src dst : FS) (htol : 0 ≤ tol)
    (hs : (src.files.map Prod.fst).Nodup)
    (p : RelPath) (hex : matches_any_pattern pats p = false) (sm : FileEntry)
    (hsm : lookupFile src.files p = some sm) :
    ∃ dm, lookupFile (run_sync_fs mode tol pats src dst).files p = some dm ∧
      fileDiffers tol sm dm = false := by
  have hscp : lookupFile (catalogFiles src.files pats) p = some sm := by
    rw [lookupFile_catalogFiles, if_neg (by simp [hex]), hsm]
  have hnotdel : p ∉ deleted_files mode pats src dst := by
    rw [mem_deleted_files_iff]
    rintro ⟨-, -, hnone⟩
    rw [hscp] at hnone
    exact Option.some_ne_none _ hnone
  have hchlookup : lookupFile (changed_files tol pats src dst) p =
      (if (match lookupFile (catalogFiles dst.files pats) p with
           | none => true
           | some de => fileDiffers tol sm de) then some sm else none) := by
    rw [changed_files, lookupFile_filter _ _ _ (nodup_keys_catalogFiles src.files pats hs),
      hscp]
    rfl
  rw [lookupFile_run_sync, if_neg hnotdel,
    lookupFile_applyCopies _ _ _ (nodup_keys_changed_files tol pats src dst hs)]
  cases hdc : lookupFile (catalogFiles dst.files pats) p with
  | none =>
    rw [hdc] at hchlookup
    simp only [if_pos rfl] at hchlookup
    rw [hchlookup]
    exact ⟨sm, rfl, fileDiffers_self tol htol sm⟩
  | some de =>
    rw [hdc] at hchlookup
    have hred : (match some de with
        | none => true
        | some d => fileDiffers tol sm d) = fileDiffers tol sm de := rfl
    rw [hred] at hchlookup
    by_cases hdiff : fileDiffers tol sm de
    · rw [hdiff, if_pos rfl] at hchlookup
      rw [hchlookup]
      exact ⟨sm, rfl, fileDiffers_self tol htol sm⟩
    · have hfalse : fileDiffers tol sm de = false := by
        revert hdiff; cases fileDiffers tol sm de <;> simp
      rw [hfalse] at hchlookup
      have hnone : lookupFile (changed_files tol pats src dst) p = none := by
        rw [hchlookup]; rfl
      rw [hnone]
      have hdst : lookupFile dst.files p = some de := by
        rw [lookupFile_catalogFiles, if_neg (by simp [hex])] at hdc
        exact hdc
      rw [hdst]
      exact ⟨de, rfl, hfalse⟩

/-- Per-path effect of a fully successful mirror run on a path absent from
the source: afterwards the path is absent from the destination files. -/
theorem lookup_run_sync_of_src_none (tol : ℚ) (pats : List Pattern)
    (src dst : FS)
    (hs : (src.files.map Prod.fst).Nodup)
    (p : RelPath) (hex : matches_any_pattern pats p = false)
    (hsm : lookupFile src.files p = none) :
    lookupFile (run_sync_fs Mode.mirror tol pats src dst).files p = none := by
  have hscp : lookupFile (catalogFiles src.files pats) p = none := by
    rw [lookupFile_catalogFiles, if_neg (by simp [hex]), hsm]
  have hchlookup : lookupFile (changed_files tol pats src dst) p = none := by
    rw [changed_files, lookupFile_filter _ _ _ (nodup_keys_catalogFiles src.files pats hs),
      hscp]
    rfl
  rw [lookupFile_run_sync]
  by_cases hdel : p ∈ deleted_files Mode.mirror pats src dst
  · rw [if_pos hdel]
  · rw [if_neg hdel,
      lookupFile_applyCopies _ _ _ (nodup_keys_changed_files tol pats src dst hs),
      hchlookup]
    cases hdst : lookupFile dst.files p with
    | none => rfl
    | some dm =>
      exfalso
      apply hdel
      rw [mem_deleted_files_iff]
      refine ⟨rfl, ?_, hscp⟩
      have hmem : (p, dm) ∈ catalogFiles dst.files pats := by
        apply List.mem_filter.mpr
        exact ⟨lookupFile_mem hdst, by simp [hex]⟩
      exact List.mem_map.mpr ⟨(p, dm), hmem, rfl⟩

theorem fileDiffers_true_iff (tol : ℚ) (se de : FileEntry) :
    fileDiffers tol se de = true ↔
      (se.size ≠ de.size ∨ tol < |se.mtime - de.mtime|) := by
  simp [fileDiffers, get_file_info]

/-- C2 (amended): after a fully successful mirror run, the destination
file catalog under the same exclusion filters agrees with the source file
catalog path by path, with equal sizes and modification times within the
tolerance; directory entries are exempted (see the counterexample). -/
theorem mirror_file_catalog_convergence (tol : ℚ) (pats : List Pattern)
    (src dst : FS) (htol : 0 ≤ tol)
    (hs : (src.files.map Prod.fst).Nodup) (p : RelPath) :
    metaClose tol (lookupFile (catalogFiles src.files pats) p)
      (lookupFile (catalogFiles (run_sync_fs Mode.mirror tol pats src dst).files pats) p) := by
  by_cases hex : matches_any_pattern pats p
  · rw [lookupFile_catalogFiles, if_pos hex, lookupFile_catalogFiles, if_pos hex]
    trivial
  · have hexf : matches_any_pattern pats p = false := by
      revert hex; cases matches_any_pattern pats p <;> simp
    rw [lookupFile_catalogFiles, if_neg hex, lookupFile_catalogFiles, if_neg hex]
    cases hsm : lookupFile src.files p with
    | none =>
      rw [lookup_run_sync_of_src_none tol pats src dst hs p hexf hsm]
      trivial
    | some sm =>
      obtain ⟨dm, hdm, hdiff⟩ :=
        lookup_run_sync_of_src Mode.mirror tol pats src dst htol hs p hexf sm hsm
      rw [hdm]
      exact (fileDiffers_false_iff tol sm dm).mp hdiff

/-- Witness for C2: a concrete mirror run on a one-file source and an
empty destination, with tolerance one. -/
theorem mirror_file_catalog_convergence_witness :
    (0 : ℚ) ≤ 1 ∧
    metaClose 1 (lookupFile (catalogFiles fsSrcA.files []) ["a.txt"])
      (lookupFile (catalogFiles (run_sync_fs Mode.mirror 1 [] fsSrcA fsEmpty).files []) ["a.txt"]) :=
  ⟨by norm_num,
   mirror_file_catalog_convergence 1 [] fsSrcA fsEmpty (by norm_num) (by decide) ["a.txt"]⟩

/-- Counterexample for C2 as stated: syncing a source holding one empty
directory d into a destination holding the same empty directory d leaves
the destination without d (the pruning sweep removes every empty
destination directory, even one present in the source), so the catalogs
differ on directory entries. -/
theorem mirror_dir_convergence_cex :
    ¬ specCatalogsConverge 1 [] fsDirD (run_sync_fs Mode.mirror 1 [] fsDirD fsDirD) := by
  intro h
  have h2 := (h.2 ["d"]).mp (by decide)
  exact absurd h2 (by decide)

/-- C9: replanning immediately after a fully successful run, with the
catalogs unchanged except by the run itself, yields an empty plan: no
changed files and no deleted files. -/
theorem plan_idempotent_after_apply (mode : Mode) (tol : ℚ) (pats : List Pattern)
    (src dst : FS) (htol : 0 ≤ tol)
    (hs : (src.files.map Prod.fst).Nodup) :
    changed_files tol pats src (run_sync_fs mode tol pats src dst) = [] ∧
    deleted_files mode pats src (run_sync_fs mode tol pats src dst) = [] := by
  constructor
  · rw [changed_files]
    rw [List.filter_eq_nil_iff]
    intro e he
    rcases List.mem_filter.mp he with ⟨hesrc, hexB⟩
    have hex : matches_any_pattern pats e.1 = false := by
      revert hexB; cases matches_any_pattern pats e.1 <;> simp
    have hsm : lookupFile src.files e.1 = some e.2 := lookupFile_of_mem hs hesrc
    obtain ⟨dm, hdm, hdiff⟩ :=
      lookup_run_sync_of_src mode tol pats src dst htol hs e.1 hex e.2 hsm
    have hcat : lookupFile
        (catalogFiles (run_sync_fs mode tol pats src dst).files pats) e.1 = some dm := by
      rw [lookupFile_catalogFiles, if_neg (by simp [hex]), hdm]
    rw [hcat]
    show ¬ fileDiffers tol e.2 dm = true
    rw [hdiff]
    exact Bool.false_ne_true
  · cases mode with
    | update => rfl
    | mirror =>
      rw [deleted_files, if_pos rfl]
      have hfil : (catalogFiles (run_sync_fs Mode.mirror tol pats src dst).files pats).filter
          (fun e => (lookupFile (catalogFiles src.files pats) e.1).isNone) = [] := by
        rw [List.filter_eq_nil_iff]
        intro e he
        rcases List.mem_filter.mp he with ⟨herun, hexB⟩
        have hex : matches_any_pattern pats e.1 = false := by
          revert hexB; cases matches_any_pattern pats e.1 <;> simp
        cases hlk : lookupFile (catalogFiles src.files pats) e.1 with
        | some sm => simp [hlk]
        | none =>
          exfalso
          have hsrcnone : lookupFile src.files e.1 = none := by
            rw [lookupFile_catalogFiles, if_neg (by simp [hex])] at hlk
            exact hlk
          have hrun := lookup_run_sync_of_src_none tol pats src dst hs e.1 hex hsrcnone
          have hmem : e.1 ∈ (run_sync_fs Mode.mirror tol pats src dst).files.map Prod.fst :=
            List.mem_map.mpr ⟨e, herun, rfl⟩
          exact (lookupFile_eq_none_iff _ _).mp hrun hmem
      rw [hfil]
      rfl

/-- Witness for C9: the concrete one-file mirror run replans to an empty
plan. -/
theorem plan_idempotent_after_apply_witness :
    changed_files 1 [] fsSrcA (run_sync_fs Mode.mirror 1 [] fsSrcA fsEmpty) = [] ∧
    deleted_files Mode.mirror [] fsSrcA (run_sync_fs Mode.mirror 1 [] fsSrcA fsEmpty) = [] :=
  plan_idempotent_after_apply Mode.mirror 1 [] fsSrcA fsEmpty (by norm_num) (by decide)

/-- C4: for a file present in both filtered catalogs, compare_directories
emits a copy exactly when the sizes differ or the mtimes differ beyond the
tolerance, and never emits a delete for it; content plays no role (the
entries carry arbitrary content). -/
theorem copyfile_iff_metadata_differs (tol : ℚ) (pats : List Pattern)
    (src dst : FS) (hs : (src.files.map Prod.fst).Nodup)
    (p : RelPath) (sm dm : FileEntry)
    (hsm : lookupFile (catalogFiles src.files pats) p = some sm)
    (hdm : lookupFile (catalogFiles dst.files pats) p = some dm) :
    (p ∈ (changed_files tol pats src dst).map Prod.fst ↔
      (sm.size ≠ dm.size ∨ tol < |sm.mtime - dm.mtime|)) ∧
    ∀ mode, p ∉ deleted_files mode pats src dst := by
  have hnd : ((catalogFiles src.files pats).map Prod.fst).Nodup :=
    nodup_keys_catalogFiles src.files pats hs
  constructor
  · constructor
    · intro hp
      rcases List.mem_map.mp hp with ⟨e, he, hep⟩
      rcases List.mem_filter.mp he with ⟨hesc, hpred⟩
      have hlk : lookupFile (catalogFiles src.files pats) e.1 = some e.2 :=
        lookupFile_of_mem hnd hesc
      rw [hep, hsm] at hlk
      have he2 : e.2 = sm := by
        injection hlk with h2
        exact h2.symm
      rw [hep, hdm] at hpred
      have : fileDiffers tol e.2 dm = true := hpred
      rw [he2] at this
      exact (fileDiffers_true_iff tol sm dm).mp this
    · intro hdiff
      have hmem : (p, sm) ∈ catalogFiles src.files pats := lookupFile_mem hsm
      have hpred : (match lookupFile (catalogFiles dst.files pats) p with
          | none => true
          | some de => fileDiffers tol sm de) = true := by
        rw [hdm]
        exact (fileDiffers_true_iff tol sm dm).mpr hdiff
      exact List.mem_map.mpr ⟨(p, sm), List.mem_filter.mpr ⟨hmem, hpred⟩, rfl⟩
  · intro mode hdel
    rcases (mem_deleted_files_iff mode pats src dst p).mp hdel with ⟨-, -, hnone⟩
    rw [hsm] at hnone
    exact Option.some_ne_none _ hnone

/-- Witness for C4: b.txt with source size twelve and destination size
ten is planned for copy and never for deletion. -/
theorem copyfile_iff_metadata_differs_witness :
    (["b.txt"] ∈ (changed_files 1 [] fsB12 fsB10).map Prod.fst ↔
      (entC12.size ≠ entC10.size ∨ 1 < |entC12.mtime - entC10.mtime|)) ∧
    ∀ mode, ["b.txt"] ∉ deleted_files mode [] fsB12 fsB10 :=
  copyfile_iff_metadata_differs 1 [] fsB12 fsB10 (by decide) ["b.txt"] entC12 entC10 rfl rfl

/-- C5 (amended): no planned action references a path matched by an
exclusion pattern: such paths are never copied and never deleted, in
either mode.  A destination entry whose source counterpart is excluded is
itself excluded by the same relative-path filter, so it generates no
delete action (see the counterexample). -/
theorem exclusion_soundness (tol : ℚ) (pats : List Pattern) (src dst : FS)
    (mode : Mode) (pat : Pattern) (hpat : pat ∈ pats) (p : RelPath)
    (hmatch : pat p = true) :
    p ∉ (changed_files tol pats src dst).map Prod.fst ∧
    p ∉ deleted_files mode pats src dst := by
  have hex : matches_any_pattern pats p = true :=
    List.any_eq_true.mpr ⟨pat, hpat, hmatch⟩
  constructor
  · intro hp
    rcases List.mem_map.mp hp with ⟨e, he, hep⟩
    rcases List.mem_filter.mp (List.mem_of_mem_filter he) with ⟨-, hexB⟩
    rw [hep, hex] at hexB
    exact Bool.false_ne_true (by simpa using hexB)
  · intro hdel
    rcases (mem_deleted_files_iff mode pats src dst p).mp hdel with ⟨-, hp, -⟩
    rcases List.mem_map.mp hp with ⟨e, he, hep⟩
    rcases List.mem_filter.mp he with ⟨-, hexB⟩
    rw [hep, hex] at hexB
    exact Bool.false_ne_true (by simpa using hexB)

/-- Witness for C5: the excluded path junk.tmp is referenced by no action
of the concrete mirror plan. -/
theorem exclusion_soundness_witness :
    ["junk.tmp"] ∉ (changed_files 1 [patTmp] fsSrcTmp fsDstTmp).map Prod.fst ∧
    ["junk.tmp"] ∉ deleted_files Mode.mirror [patTmp] fsSrcTmp fsDstTmp :=
  exclusion_soundness 1 [patTmp] fsSrcTmp fsDstTmp Mode.mirror patTmp
    (List.mem_singleton_self patTmp) ["junk.tmp"] (by decide)

/-- Counterexample for C5 as stated: the destination holds junk.tmp, its
source counterpart exists but is excluded by the pattern, and still the
mirror plan contains no delete action at all, because the destination
entry is filtered by the same relative-path pattern and retained. -/
theorem excluded_counterpart_no_delete_cex :
    patTmp ["junk.tmp"] = true ∧
    lookupFile fsSrcTmp.files ["junk.tmp"] = some entA ∧
    lookupFile fsDstTmp.files ["junk.tmp"] = some entC10 ∧
    deleted_files Mode.mirror [patTmp] fsSrcTmp fsDstTmp = [] :=
  ⟨by decide, rfl, rfl, rfl⟩

/- ======================================================================
   C1: atomicity of the CLI copy, non-atomicity of the GUI copy
   ====================================================================== -/
theorem cleanupTemp_dest (s : CopyFS) (uok : Bool) :
    (cleanupTemp s uok).dest = s.dest := by
  unfold cleanupTemp
  split <;> rfl

theorem copyLoop_atomic (src : List Nat) (outcomes : Nat → CopyOutcome)
    (initD bf : ℚ) :
    ∀ (rem attempt : Nat) (s : CopyFS),
      ((copyLoop src outcomes initD bf attempt rem s).success = false →
        (∀ x ∈ (copyLoop src outcomes initD bf attempt rem s).states, x.dest = s.dest) ∧
        (copyLoop src outcomes initD bf attempt rem s).final.dest = s.dest) ∧
      ((copyLoop src outcomes initD bf attempt rem s).success = true →
        ∃ pre, (copyLoop src outcomes initD bf attempt rem s).states =
            pre ++ [{ dest := some src, temp := none }] ∧
          ∀ x ∈ pre, x.dest = s.dest) := by
  intro rem
  induction rem with
  | zero =>
    intro attempt s
    constructor
    · intro _
      exact ⟨fun x hx => absurd hx (List.not_mem_nil x), rfl⟩
    · intro h
      exact absurd h (by simp [copyLoop])
  | succ rem ih =>
    intro attempt s
    cases ho : outcomes attempt with
    | ok =>
      constructor
      · intro h
        exact absurd h (by simp [copyLoop, ho, attemptStep])
      · intro _
        refine ⟨[{ s with temp := some src }], ?_, ?_⟩
        · simp [copyLoop, ho, attemptStep]
        · intro x hx
          rcases List.mem_singleton.mp hx with rfl
          rfl
    | copyFail w uok =>
      have hloop : copyLoop src outcomes initD bf attempt (rem + 1) s =
          (if rem = 0 then
            { states := [{ s with temp := w }, cleanupTemp { s with temp := w } uok],
              final := cleanupTemp { s with temp := w } uok,
              success := false, delays := [], attempts := 1 }
          else
            let r := copyLoop src outcomes initD bf (attempt + 1) rem
              (cleanupTemp { s with temp := w } uok)
            { states := [{ s with temp := w }, cleanupTemp { s with temp := w } uok] ++ r.states,
              final := r.final, success := r.success,
              delays := initD * bf ^ attempt :: r.delays, attempts := r.attempts + 1 }) := by
        simp [copyLoop, ho, attemptStep]
      by_cases hrem : rem = 0
      · rw [hloop, if_pos hrem]
        constructor
        · intro _
          refine ⟨?_, cleanupTemp_dest _ _⟩
          intro x hx
          rcases List.mem_cons.mp hx with rfl | hx
          · rfl
          · rcases List.mem_singleton.mp hx with rfl
            exact cleanupTemp_dest _ _
        · intro h
          exact absurd h (by simp)
      · rw [hloop, if_neg hrem]
        have hdest : (cleanupTemp { s with temp := w } uok).dest = s.dest :=
          cleanupTemp_dest _ _
        have ihr := ih (attempt + 1) (cleanupTemp { s with temp := w } uok)
        constructor
        · intro h
          have hr := ihr.1 h
          refine ⟨?_, by rw [hr.2, hdest]⟩
          intro x hx
          rcases List.mem_append.mp hx with hx | hx
          · rcases List.mem_cons.mp hx with rfl | hx
            · rfl
            · rcases List.mem_singleton.mp hx with rfl
              exact hdest
          · rw [hr.1 x hx, hdest]
        · intro h
          obtain ⟨pre, hpre, hall⟩ := ihr.2 h
          refine ⟨[{ s with temp := w }, cleanupTemp { s with temp := w } uok] ++ pre, ?_, ?_⟩
          · rw [List.append_assoc, ← hpre]
          · intro x hx
            rcases List.mem_append.mp hx with hx | hx
            · rcases List.mem_cons.mp hx with rfl | hx
              · rfl
              · rcases List.mem_singleton.mp hx with rfl
                exact hdest
            · rw [hall x hx, hdest]
    | verifyFail uok =>
      have hloop : copyLoop src outcomes initD bf attempt (rem + 1) s =
          (if rem = 0 then
            { states := [{ s with temp := some src },
                cleanupTemp { s with temp := some src } uok],
              final := cleanupTemp { s with temp := some src } uok,
              success := false, delays := [], attempts := 1 }
          else
            let r := copyLoop src outcomes initD bf (attempt + 1) rem
              (cleanupTemp { s with temp := some src } uok)
            { states := [{ s with temp := some src },
                cleanupTemp { s with temp := some src } uok] ++ r.states,
              final := r.final, success := r.success,
              delays := initD * bf ^ attempt :: r.delays, attempts := r.attempts + 1 }) := by
        simp [copyLoop, ho, attemptStep]
      by_cases hrem : rem = 0
      · rw [hloop, if_pos hrem]
        constructor
        · intro _
          refine ⟨?_, cleanupTemp_dest _ _⟩
          intro x hx
          rcases List.mem_cons.mp hx with rfl | hx
          · rfl
          · rcases List.mem_singleton.mp hx with rfl
            exact cleanupTemp_dest _ _
        · intro h
          exact absurd h (by simp)
      · rw [hloop, if_neg hrem]
        have hdest : (cleanupTemp { s with temp := some src } uok).dest = s.dest :=
          cleanupTemp_dest _ _
        have ihr := ih (attempt + 1) (cleanupTemp { s with temp := some src } uok)
        constructor
        · intro h
          have hr := ihr.1 h
          refine ⟨?_, by rw [hr.2, hdest]⟩
          intro x hx
          rcases List.mem_append.mp hx with hx | hx
          · rcases List.mem_cons.mp hx with rfl | hx
            · rfl
            · rcases List.mem_singleton.mp hx with rfl
              exact hdest
          · rw [hr.1 x hx, hdest]
        · intro h
          obtain ⟨pre, hpre, hall⟩ := ihr.2 h
          refine ⟨[{ s with temp := some src },
            cleanupTemp { s with temp := some src } uok] ++ pre, ?_, ?_⟩
          · rw [List.append_assoc, ← hpre]
          · intro x hx
            rcases List.mem_append.mp hx with hx | hx
            · rcases List.mem_cons.mp hx with rfl | hx
              · rfl
              · rcases List.mem_singleton.mp hx with rfl
                exact hdest
            · rw [hall x hx, hdest]
    | fatalFail w uok =>
      constructor
      · intro _
        have hst : (copyLoop src outcomes initD bf attempt (rem + 1) s).states =
            [{ s with temp := w }, cleanupTemp { s with temp := w } uok] := by
          simp [copyLoop, ho, attemptStep]
        have hfin : (copyLoop src outcomes initD bf attempt (rem + 1) s).final =
            cleanupTemp { s with temp := w } uok := by
          simp [copyLoop, ho, attemptStep]
        rw [hst, hfin]
        refine ⟨?_, cleanupTemp_dest _ _⟩
        intro x hx
        rcases List.mem_cons.mp hx with rfl | hx
        · rfl
        · rcases List.mem_singleton.mp hx with rfl
          exact cleanupTemp_dest _ _
      · intro h
        exact absurd h (by simp [copyLoop, ho, attemptStep])

/-- C1 (amended, CLI engine): in safe_copy_file_with_retry the data goes
to a temporary sibling and only an attempt whose copy, hooks and optional
verification all succeeded commits it over the destination (os.replace);
under every fault schedule, every observable state before the commit
still shows the pre-sync destination content, a failed call leaves the
destination untouched, and after a transient failure whose unlink
succeeds the temporary file is gone.  The GUI front end apply_sync does
not share this property (see the counterexample). -/
theorem cli_copy_atomic_before_commit (src : List Nat) (outcomes : Nat → CopyOutcome)
    (max_retries : Nat) (initD bf : ℚ) (s0 : CopyFS) :
    ((safe_copy_file_with_retry src outcomes max_retries initD bf s0).success = false →
      (∀ x ∈ (safe_copy_file_with_retry src outcomes max_retries initD bf s0).states,
        x.dest = s0.dest) ∧
      (safe_copy_file_with_retry src outcomes max_retries initD bf s0).final.dest = s0.dest) ∧
    ((safe_copy_file_with_retry src outcomes max_retries initD bf s0).success = true →
      ∃ pre, (safe_copy_file_with_retry src outcomes max_retries initD bf s0).states =
          pre ++ [{ dest := some src, temp := none }] ∧
        ∀ x ∈ pre, x.dest = s0.dest) ∧
    (∀ (s : CopyFS) (w : Option (List Nat)),
      (attemptStep src s (CopyOutcome.copyFail w true)).2.1.temp = none ∧
      (attemptStep src s (CopyOutcome.verifyFail true)).2.1.temp = none) := by
  refine ⟨(copyLoop_atomic src outcomes initD bf max_retries 0 s0).1,
    (copyLoop_atomic src outcomes initD bf max_retries 0 s0).2, ?_⟩
  intro s w
  constructor
  · cases w <;> simp [attemptStep, cleanupTemp]
  · simp [attemptStep, cleanupTemp]

/-- Witness for C1: under the concrete schedule the run commits, its last
state holds the full source content, and every earlier state still shows
the pre-sync destination byte. -/
theorem cli_copy_atomic_before_commit_witness :
    ∃ pre, (safe_copy_file_with_retry [1, 2] faultThenOk 2 1 2
        { dest := some [9], temp := none }).states =
        pre ++ [{ dest := some [1, 2], temp := none }] ∧
      ∀ x ∈ pre, x.dest = some [9] :=
  (cli_copy_atomic_before_commit [1, 2] faultThenOk 2 1 2
    { dest := some [9], temp := none }).2.1 rfl

/-- Counterexample for C1 as stated: the GUI executor writes straight to
the destination path, so an interrupted copy exposes a state (here the
truncated and the one-byte destination) that is neither absent nor the
pre-sync content nor the complete source content. -/
theorem gui_copy_not_atomic_cex :
    ¬ atomicBeforeCommit (some [9, 9]) [1, 2, 3]
      (gui_apply_copy_file [1, 2, 3] (some [1])) := by
  intro h
  have hmem : (some [] : Option (List Nat)) ∈ gui_apply_copy_file [1, 2, 3] (some [1]) := by
    simp [gui_apply_copy_file]
  rcases h (some []) hmem with hc | hc | hc <;> simp at hc

/- ======================================================================
   C7: retry loop semantics
   ====================================================================== -/
theorem geom_delays_shift (initD bf : ℚ) (a m : Nat) :
    (List.range (m + 1)).map (fun i => initD * bf ^ (a + i)) =
      initD * bf ^ a :: (List.range m).map (fun i => initD * bf ^ (a + 1 + i)) := by
  rw [List.range_succ_eq_map, List.map_cons, List.map_map]
  have hhead : initD * bf ^ (a + 0) = initD * bf ^ a := by rw [Nat.add_zero]
  have htail : List.map ((fun i => initD * bf ^ (a + i)) ∘ Nat.succ) (List.range m) =
      List.map (fun i => initD * bf ^ (a + 1 + i)) (List.range m) := by
    apply List.map_congr_left
    intro i _
    show initD * bf ^ (a + (i + 1)) = initD * bf ^ (a + 1 + i)
    have hadd : a + (i + 1) = a + 1 + i := by omega
    rw [hadd]
  rw [hhead, htail]

theorem removeLoop_exact (faults : Nat → Bool) (initD bf : ℚ) (k : Nat)
    (hf : ∀ i, faults i = true ↔ i < k) :
    ∀ (rem a : Nat), a ≤ k → k - a < rem →
      removeLoop faults initD bf a rem =
        { success := true,
          delays := (List.range (k - a)).map (fun i => initD * bf ^ (a + i)),
          attempts := k - a + 1 } := by
  intro rem
  induction rem with
  | zero => intro a _ hlt; omega
  | succ rem ih =>
    intro a ha hlt
    by_cases hak : a = k
    · subst hak
      have hfa : faults a = false := by
        have := hf a
        revert this
        cases faults a <;> simp
      simp [removeLoop, hfa]
    · have halt : a < k := lt_of_le_of_ne ha hak
      have hfa : faults a = true := (hf a).mpr halt
      have hrem : ¬ rem = 0 := by omega
      have hk1 : a + 1 ≤ k := halt
      have hk2 : k - (a + 1) < rem := by omega
      rw [show removeLoop faults initD bf a (rem + 1) =
          (if faults a then
            (if rem = 0 then { success := false, delays := [], attempts := 1 }
             else
              let r := removeLoop faults initD bf (a + 1) rem
              { success := r.success, delays := initD * bf ^ a :: r.delays,
                attempts := r.attempts + 1 })
          else { success := true, delays := [], attempts := 1 }) from rfl]
      rw [if_pos hfa, if_neg hrem, ih (a + 1) hk1 hk2]
      have hka : k - a = (k - (a + 1)) + 1 := by omega
      rw [hka, geom_delays_shift]

theorem removeLoop_attempts_le (faults : Nat → Bool) (initD bf : ℚ) :
    ∀ (rem a : Nat), (removeLoop faults initD bf a rem).attempts ≤ rem := by
  intro rem
  induction rem with
  | zero => intro a; simp [removeLoop]
  | succ rem ih =>
    intro a
    rw [show removeLoop faults initD bf a (rem + 1) =
        (if faults a then
          (if rem = 0 then { success := false, delays := [], attempts := 1 }
           else
            let r := removeLoop faults initD bf (a + 1) rem
            { success := r.success, delays := initD * bf ^ a :: r.delays,
              attempts := r.attempts + 1 })
        else { success := true, delays := [], attempts := 1 }) from rfl]
    by_cases hfa : faults a
    · rw [if_pos hfa]
      by_cases hrem : rem = 0
      · rw [if_pos hrem]
        show 1 ≤ rem + 1
        omega
      · rw [if_neg hrem]
        have := ih (a + 1)
        show (removeLoop faults initD bf (a + 1) rem).attempts + 1 ≤ rem + 1
        omega
    · rw [if_neg hfa]
      show 1 ≤ rem + 1
      omega

theorem removeLoop_all_fail (faults : Nat → Bool) (initD bf : ℚ) :
    ∀ (rem a : Nat), (∀ i, i < a + rem → faults i = true) →
      (removeLoop faults initD bf a rem).success = false := by
  intro rem
  induction rem with
  | zero => intro a _; simp [removeLoop]
  | succ rem ih =>
    intro a hall
    have hfa : faults a = true := hall a (by omega)
    rw [show removeLoop faults initD bf a (rem + 1) =
        (if faults a then
          (if rem = 0 then { success := false, delays := [], attempts := 1 }
           else
            let r := removeLoop faults initD bf (a + 1) rem
            { success := r.success, delays := initD * bf ^ a :: r.delays,
              attempts := r.attempts + 1 })
        else { success := true, delays := [], attempts := 1 }) from rfl]
    rw [if_pos hfa]
    by_cases hrem : rem = 0
    · rw [if_pos hrem]
    · rw [if_neg hrem]
      exact ih (a + 1) (fun i hi => hall i (by omega))

theorem copyLoop_exact (src : List Nat) (outcomes : Nat → CopyOutcome)
    (initD bf : ℚ) (k : Nat)
    (ho : ∀ i, i < k → (outcomes i).isTransient = true)
    (hok : outcomes k = CopyOutcome.ok) :
    ∀ (rem a : Nat) (s : CopyFS), a ≤ k → k - a < rem →
      (copyLoop src outcomes initD bf a rem s).success = true ∧
      (copyLoop src outcomes initD bf a rem s).attempts = k - a + 1 ∧
      (copyLoop src outcomes initD bf a rem s).delays =
        (List.range (k - a)).map (fun i => initD * bf ^ (a + i)) := by
  intro rem
  induction rem with
  | zero => intro a s _ hlt; omega
  | succ rem ih =>
    intro a s ha hlt
    by_cases hak : a = k
    · subst hak
      refine ⟨?_, ?_, ?_⟩ <;> simp [copyLoop, hok, attemptStep]
    · have halt : a < k := lt_of_le_of_ne ha hak
      have htr : (outcomes a).isTransient = true := ho a halt
      have hrem : ¬ rem = 0 := by omega
      have hk2 : k - (a + 1) < rem := by omega
      obtain ⟨hsucc, hatt, hdel⟩ := ih (a + 1) ((attemptStep src s (outcomes a)).2.1)
        halt hk2
      cases hoa : outcomes a with
      | ok => rw [hoa] at htr; exact absurd htr (by simp [CopyOutcome.isTransient])
      | fatalFail w uok => rw [hoa] at htr; exact absurd htr (by simp [CopyOutcome.isTransient])
      | copyFail w uok =>
        rw [hoa] at hsucc hatt hdel
        have hloop : copyLoop src outcomes initD bf a (rem + 1) s =
            (let r := copyLoop src outcomes initD bf (a + 1) rem
              ((attemptStep src s (CopyOutcome.copyFail w uok)).2.1)
            { states := (attemptStep src s (CopyOutcome.copyFail w uok)).1 ++ r.states,
              final := r.final, success := r.success,
              delays := initD * bf ^ a :: r.delays, attempts := r.attempts + 1 }) := by
          simp [copyLoop, hoa, hrem, attemptStep]
        rw [hloop]
        refine ⟨hsucc, ?_, ?_⟩
        · show (copyLoop src outcomes initD bf (a + 1) rem _).attempts + 1 = k - a + 1
          rw [hatt]; omega
        · show initD * bf ^ a :: (copyLoop src outcomes initD bf (a + 1) rem _).delays =
            (List.range (k - a)).map (fun i => initD * bf ^ (a + i))
          rw [hdel]
          have hka : k - a = (k - (a + 1)) + 1 := by omega
          rw [hka, geom_delays_shift]
      | verifyFail uok =>
        rw [hoa] at hsucc hatt hdel
        have hloop : copyLoop src outcomes initD bf a (rem + 1) s =
            (let r := copyLoop src outcomes initD bf (a + 1) rem
              ((attemptStep src s (CopyOutcome.verifyFail uok)).2.1)
            { states := (attemptStep src s (CopyOutcome.verifyFail uok)).1 ++ r.states,
              final := r.final, success := r.success,
              delays := initD * bf ^ a :: r.delays, attempts := r.attempts + 1 }) := by
          simp [copyLoop, hoa, hrem, attemptStep]
        rw [hloop]
        refine ⟨hsucc, ?_, ?_⟩
        · show (copyLoop src outcomes initD bf (a + 1) rem _).attempts + 1 = k - a + 1
          rw [hatt]; omega
        · show initD * bf ^ a :: (copyLoop src outcomes initD bf (a + 1) rem _).delays =
            (List.range (k - a)).map (fun i => initD * bf ^ (a + i))
          rw [hdel]
          have hka : k - a = (k - (a + 1)) + 1 := by omega
          rw [hka, geom_delays_shift]

theorem copyLoop_attempts_le (src : List Nat) (outcomes : Nat → CopyOutcome)
    (initD bf : ℚ) :
    ∀ (rem a : Nat) (s : CopyFS),
      (copyLoop src outcomes initD bf a rem s).attempts ≤ rem := by
  intro rem
  induction rem with
  | zero => intro a s; simp [copyLoop]
  | succ rem ih =>
    intro a s
    cases ho : outcomes a with
    | ok => simp [copyLoop, ho, attemptStep]
    | fatalFail w uok => simp [copyLoop, ho, attemptStep]
    | copyFail w uok =>
      by_cases hrem : rem = 0
      · subst hrem; simp [copyLoop, ho, attemptStep]
      · have hloop : (copyLoop src outcomes initD bf a (rem + 1) s).attempts =
            (copyLoop src outcomes initD bf (a + 1) rem
              ((attemptStep src s (CopyOutcome.copyFail w uok)).2.1)).attempts + 1 := by
          simp [copyLoop, ho, hrem, attemptStep]
        rw [hloop]
        have := ih (a + 1) ((attemptStep src s (CopyOutcome.copyFail w uok)).2.1)
        omega
    | verifyFail uok =>
      by_cases hrem : rem = 0
      · subst hrem; simp [copyLoop, ho, attemptStep]
      · have hloop : (copyLoop src outcomes initD bf a (rem + 1) s).attempts =
            (copyLoop src outcomes initD bf (a + 1) rem
              ((attemptStep src s (CopyOutcome.verifyFail uok)).2.1)).attempts + 1 := by
          simp [copyLoop, ho, hrem, attemptStep]
        rw [hloop]
        have := ih (a + 1) ((attemptStep src s (CopyOutcome.verifyFail uok)).2.1)
        omega

theorem sync_file_success_no_error (copyOk : RelPath → Bool) (p : RelPath)
    (f : SrcFile) (st : SyncState) (hok : copyOk p = true) :
    (sync_file false copyOk p f st).error_files = st.error_files := by
  unfold sync_file
  by_cases h1 : f.is_file
  · by_cases h2 : is_file_locked f <;> simp [h1, h2, hok]
  · simp [h1]

/-- C7: a retried operation runs at most max_retries attempts with waits
of initial_delay * backoff_factor ** (attempt - 1) between consecutive
attempts; failing on exactly the first k attempts with k below the bound
and then succeeding ends in success with k + 1 attempts and the geometric
delay sequence, and a successful operation is not recorded as failed;
exhausting all attempts surfaces the failure.  This holds for both the
retryable delete and the retryable copy. -/
theorem retry_semantics (faults : Nat → Bool) (outcomes : Nat → CopyOutcome)
    (k max_retries : Nat) (initD bf : ℚ) (src : List Nat) (s0 : CopyFS)
    (p : RelPath) (errors : List RelPath)
    (hk : k < max_retries)
    (hf : ∀ i, faults i = true ↔ i < k)
    (ho : ∀ i, i < k → (outcomes i).isTransient = true)
    (hok : outcomes k = CopyOutcome.ok) :
    ((safe_remove_with_retry faults max_retries initD bf).success = true ∧
     (safe_remove_with_retry faults max_retries initD bf).attempts = k + 1 ∧
     (safe_remove_with_retry faults max_retries initD bf).delays =
       (List.range k).map (fun i => initD * bf ^ i)) ∧
    ((safe_copy_file_with_retry src outcomes max_retries initD bf s0).success = true ∧
     (safe_copy_file_with_retry src outcomes max_retries initD bf s0).attempts = k + 1 ∧
     (safe_copy_file_with_retry src outcomes max_retries initD bf s0).delays =
       (List.range k).map (fun i => initD * bf ^ i)) ∧
    recordRemove p true errors = errors ∧
    (∀ (g : Nat → Bool) (m : Nat),
      (safe_remove_with_retry g m initD bf).attempts ≤ m ∧
      (safe_copy_file_with_retry src outcomes m initD bf s0).attempts ≤ m) ∧
    (∀ (g : Nat → Bool) (m : Nat), (∀ i, i < m → g i = true) →
      (safe_remove_with_retry g m initD bf).success = false) := by
  have hdel : (List.range (k - 0)).map (fun i => initD * bf ^ (0 + i)) =
      (List.range k).map (fun i => initD * bf ^ i) := by
    rw [Nat.sub_zero]
    apply List.map_congr_left
    intro i _
    rw [Nat.zero_add]
  have hrem := removeLoop_exact faults initD bf k hf max_retries 0 (by omega) (by omega)
  have hcpy := copyLoop_exact src outcomes initD bf k ho hok max_retries 0 s0
    (by omega) (by omega)
  refine ⟨⟨?_, ?_, ?_⟩, ⟨hcpy.1, ?_, ?_⟩, rfl, ?_, ?_⟩
  · rw [safe_remove_with_retry, hrem]
  · rw [safe_remove_with_retry, hrem]
    show k - 0 + 1 = k + 1
    omega
  · rw [safe_remove_with_retry, hrem]
    show (List.range (k - 0)).map (fun i => initD * bf ^ (0 + i)) =
      (List.range k).map (fun i => initD * bf ^ i)
    exact hdel
  · rw [safe_copy_file_with_retry, hcpy.2.1]
    omega
  · rw [safe_copy_file_with_retry, hcpy.2.2]
    exact hdel
  · intro g m
    exact ⟨removeLoop_attempts_le g initD bf m 0,
      copyLoop_attempts_le src outcomes initD bf m 0 s0⟩
  · intro g m hall
    exact removeLoop_all_fail g initD bf m 0 (fun i hi => hall i (by omega))

/-- Witness for C7: two injected failures with max_retries three end in
success after three attempts with delays one and two. -/
theorem retry_semantics_witness :
    ((safe_remove_with_retry wFaults 3 1 2).success = true ∧
     (safe_remove_with_retry wFaults 3 1 2).attempts = 2 + 1 ∧
     (safe_remove_with_retry wFaults 3 1 2).delays =
       (List.range 2).map (fun i => (1 : ℚ) * 2 ^ i)) ∧
    ((safe_copy_file_with_retry [1] wOutcomes 3 1 2
        { dest := none, temp := none }).success = true ∧
     (safe_copy_file_with_retry [1] wOutcomes 3 1 2
        { dest := none, temp := none }).attempts = 2 + 1 ∧
     (safe_copy_file_with_retry [1] wOutcomes 3 1 2
        { dest := none, temp := none }).delays =
       (List.range 2).map (fun i => (1 : ℚ) * 2 ^ i)) ∧
    recordRemove ["c.txt"] true [] = [] ∧
    (∀ (g : Nat → Bool) (m : Nat),
      (safe_remove_with_retry g m 1 2).attempts ≤ m ∧
      (safe_copy_file_with_retry [1] wOutcomes m 1 2
        { dest := none, temp := none }).attempts ≤ m) ∧
    (∀ (g : Nat → Bool) (m : Nat), (∀ i, i < m → g i = true) →
      (safe_remove_with_retry g m 1 2).success = false) :=
  retry_semantics wFaults wOutcomes 2 3 1 2 [1] { dest := none, temp := none }
    ["c.txt"] [] (by norm_num)
    (by intro i; simp [wFaults])
    (by intro i hi; simp [wOutcomes, hi, CopyOutcome.isTransient])
    (by simp [wOutcomes])

/- ======================================================================
   C8 and C10: lock probe and per-file dispatch
   ====================================================================== -/
theorem runCopyPhase_fields (copyOk : RelPath → Bool)
    (files : List (RelPath × SrcFile)) (st : SyncState) :
    (runCopyPhase false copyOk files st).locked_files =
      st.locked_files ++
        (files.filter (fun e => e.2.is_file && is_file_locked e.2)).map Prod.fst ∧
    (runCopyPhase false copyOk files st).copyCalls =
      st.copyCalls ++
        (files.filter (fun e => e.2.is_file && !is_file_locked e.2)).map Prod.fst ∧
    (runCopyPhase false copyOk files st).error_files =
      st.error_files ++
        (files.filter
          (fun e => e.2.is_file && !is_file_locked e.2 && !copyOk e.1)).map Prod.fst := by
  induction files generalizing st with
  | nil => simp [runCopyPhase]
  | cons e rest ih =>
    have hstep : runCopyPhase false copyOk (e :: rest) st =
        runCopyPhase false copyOk rest (sync_file false copyOk e.1 e.2 st) := rfl
    rw [hstep]
    obtain ⟨ihl, ihc, ihe⟩ := ih (sync_file false copyOk e.1 e.2 st)
    by_cases h1 : e.2.is_file
    · by_cases h2 : is_file_locked e.2
      · have hsf : sync_file false copyOk e.1 e.2 st =
            { st with locked_files := st.locked_files ++ [e.1] } := by
          simp [sync_file, h1, h2]
        rw [hsf] at ihl ihc ihe
        refine ⟨?_, ?_, ?_⟩
        · rw [hsf, ihl]
          simp [h1, h2, List.filter, List.append_assoc]
        · rw [hsf, ihc]
          simp [h1, h2, List.filter]
        · rw [hsf, ihe]
          simp [h1, h2, List.filter]
      · by_cases h3 : copyOk e.1
        · have hsf : sync_file false copyOk e.1 e.2 st =
              { st with copyCalls := st.copyCalls ++ [e.1] } := by
            simp [sync_file, h1, h2, h3]
          rw [hsf] at ihl ihc ihe
          refine ⟨?_, ?_, ?_⟩
          · rw [hsf, ihl]
            simp [h1, h2, List.filter]
          · rw [hsf, ihc]
            simp [h1, h2, h3, List.filter, List.append_assoc]
          · rw [hsf, ihe]
            simp [h1, h2, h3, List.filter]
        · have hsf : sync_file false copyOk e.1 e.2 st =
              { st with copyCalls := st.copyCalls ++ [e.1],
                        error_files := st.error_files ++ [e.1] } := by
            simp [sync_file, h1, h2, h3]
          rw [hsf] at ihl ihc ihe
          refine ⟨?_, ?_, ?_⟩
          · rw [hsf, ihl]
            simp [h1, h2, List.filter]
          · rw [hsf, ihc]
            simp [h1, h2, h3, List.filter, List.append_assoc]
          · rw [hsf, ihe]
            simp [h1, h2, h3, List.filter, List.append_assoc]
    · have hsf : sync_file false copyOk e.1 e.2 st = st := by
        simp [sync_file, h1]
      rw [hsf] at ihl ihc ihe
      refine ⟨?_, ?_, ?_⟩
      · rw [hsf, ihl]; simp [h1, List.filter]
      · rw [hsf, ihc]; simp [h1, List.filter]
      · rw [hsf, ihe]; simp [h1, List.filter]

theorem nodup_keys_unique {α β : Type} {l : List (α × β)}
    (hnd : (l.map Prod.fst).Nodup) {p : α} {b c : β}
    (hb : (p, b) ∈ l) (hc : (p, c) ∈ l) : b = c := by
  induction l with
  | nil => simp at hb
  | cons x rest ih =>
    simp only [List.map_cons, List.nodup_cons] at hnd
    rcases List.mem_cons.mp hb with hb1 | hb1 <;> rcases List.mem_cons.mp hc with hc1 | hc1
    · rw [← hb1] at hc1
      injection hc1 with h1 h2
      exact h2.symm
    · exfalso
      apply hnd.1
      rw [← hb1]
      exact List.mem_map.mpr ⟨(p, c), hc1, rfl⟩
    · exfalso
      apply hnd.1
      rw [← hc1]
      exact List.mem_map.mpr ⟨(p, b), hb1, rfl⟩
    · exact ih hnd.2 hb1 hc1

/-- C8: a source file whose lock probe fails is appended to locked_files
and skipped before any copy attempt: the retryable copy is never invoked
for it and it never enters error_files, while every other unlocked
source file of the batch still gets its copy attempt. -/
theorem locked_file_skipped (copyOk : RelPath → Bool)
    (files : List (RelPath × SrcFile)) (st : SyncState) (p : RelPath) (f : SrcFile)
    (hmem : (p, f) ∈ files) (hfile : f.is_file = true) (hlock : is_file_locked f = true)
    (hnd : (files.map Prod.fst).Nodup)
    (hep : p ∉ st.error_files) (hcp : p ∉ st.copyCalls) :
    p ∈ (runCopyPhase false copyOk files st).locked_files ∧
    p ∉ (runCopyPhase false copyOk files st).error_files ∧
    p ∉ (runCopyPhase false copyOk files st).copyCalls ∧
    ∀ q g, (q, g) ∈ files → g.is_file = true → is_file_locked g = false →
      q ∈ (runCopyPhase false copyOk files st).copyCalls := by
  obtain ⟨hl, hc, he⟩ := runCopyPhase_fields copyOk files st
  refine ⟨?_, ?_, ?_, ?_⟩
  · rw [hl]
    apply List.mem_append_right
    exact List.mem_map.mpr ⟨(p, f),
      List.mem_filter.mpr ⟨hmem, by simp [hfile, hlock]⟩, rfl⟩
  · rw [he]
    intro hmem2
    rcases List.mem_append.mp hmem2 with h | h
    · exact hep h
    · rcases List.mem_map.mp h with ⟨e, he2, hef⟩
      rcases e with ⟨q, g⟩
      rcases List.mem_filter.mp he2 with ⟨hein, hcond⟩
      have hq : q = p := hef
      subst hq
      have hg : g = f := nodup_keys_unique hnd hein hmem
      rw [hg, hlock] at hcond
      simp at hcond
  · rw [hc]
    intro hmem2
    rcases List.mem_append.mp hmem2 with h | h
    · exact hcp h
    · rcases List.mem_map.mp h with ⟨e, he2, hef⟩
      rcases e with ⟨q, g⟩
      rcases List.mem_filter.mp he2 with ⟨hein, hcond⟩
      have hq : q = p := hef
      subst hq
      have hg : g = f := nodup_keys_unique hnd hein hmem
      rw [hg, hlock] at hcond
      simp at hcond
  · intro q g hqg hgfile hgnl
    rw [hc]
    apply List.mem_append_right
    exact List.mem_map.mpr ⟨(q, g),
      List.mem_filter.mpr ⟨hqg, by simp [hgfile, hgnl]⟩, rfl⟩

/-- Witness for C8: in a batch of one locked and one free file, the
locked one lands in locked_files only and the free one is copied. -/
theorem locked_file_skipped_witness :
    ["locked.txt"] ∈ (runCopyPhase false (fun _ => true)
      [(["locked.txt"], lockedF), (["free.txt"], freeF)] st0).locked_files ∧
    ["locked.txt"] ∉ (runCopyPhase false (fun _ => true)
      [(["locked.txt"], lockedF), (["free.txt"], freeF)] st0).error_files ∧
    ["locked.txt"] ∉ (runCopyPhase false (fun _ => true)
      [(["locked.txt"], lockedF), (["free.txt"], freeF)] st0).copyCalls ∧
    ∀ q g, (q, g) ∈ [(["locked.txt"], lockedF), (["free.txt"], freeF)] →
      g.is_file = true → is_file_locked g = false →
      q ∈ (runCopyPhase false (fun _ => true)
        [(["locked.txt"], lockedF), (["free.txt"], freeF)] st0).copyCalls :=
  locked_file_skipped (fun _ => true) [(["locked.txt"], lockedF), (["free.txt"], freeF)]
    st0 ["locked.txt"] lockedF (by decide) rfl (by decide) (by decide)
    (by decide) (by decide)

/-- C10: the lock probe reports locked exactly when the r+b open fails,
and the open needs write access; hence a readable but write-protected
source file that nobody holds is recorded as locked and its copy is never
attempted. -/
theorem lock_check_rplusb_semantics (copyOk : RelPath → Bool) (p : RelPath)
    (f : SrcFile) (st : SyncState)
    (hfile : f.is_file = true) (hread : f.readable = true)
    (hwrite : f.writable = false) (hheld : f.heldExclusive = false) :
    (∀ g : SrcFile, is_file_locked g = true ↔ openReadWrite g = false) ∧
    is_file_locked f = true ∧
    (sync_file false copyOk p f st).locked_files = st.locked_files ++ [p] ∧
    (sync_file false copyOk p f st).copyCalls = st.copyCalls ∧
    (sync_file false copyOk p f st).error_files = st.error_files := by
  have hlockf : is_file_locked f = true := by
    simp [is_file_locked, openReadWrite, hwrite]
  refine ⟨?_, hlockf, ?_, ?_, ?_⟩
  · intro g
    cases hg : openReadWrite g <;> simp [is_file_locked, hg]
  all_goals simp [sync_file, hfile, hlockf]

/-- Witness for C10: the concrete read-only file is classified locked and
recorded without a copy attempt. -/
theorem lock_check_rplusb_semantics_witness :
    (∀ g : SrcFile, is_file_locked g = true ↔ openReadWrite g = false) ∧
    is_file_locked readOnlyF = true ∧
    (sync_file false (fun _ => true) ["ro.txt"] readOnlyF st0).locked_files =
      st0.locked_files ++ [["ro.txt"]] ∧
    (sync_file false (fun _ => true) ["ro.txt"] readOnlyF st0).copyCalls = st0.copyCalls ∧
    (sync_file false (fun _ => true) ["ro.txt"] readOnlyF st0).error_files = st0.error_files :=
  lock_check_rplusb_semantics (fun _ => true) ["ro.txt"] readOnlyF st0 rfl rfl rfl rfl

/- ======================================================================
   C3 and C6: plan shape of the two engines
   ====================================================================== -/
theorem leadsTo_trans {a b c : RelPath} (h1 : leadsTo a b) (h2 : leadsTo b c) :
    leadsTo a c := by
  obtain ⟨u, rfl⟩ := h1
  obtain ⟨v, rfl⟩ := h2
  exact ⟨u ++ v, by rw [List.append_assoc]⟩

theorem ddOrd_of_none_left {a b : SyncAction} (h : a.delDirPath = none) : ddOrd a b := by
  intro x y hx _
  rw [h] at hx
  cases hx

theorem ddOrd_of_none_right {a b : SyncAction} (h : b.delDirPath = none) : ddOrd a b := by
  intro x y _ hy
  rw [h] at hy
  cases hy

mutual
theorem copyPhase_no_delete (dst : FSTree) (filt : RelPath → Bool)
    (srcRoot dstRoot : RelPath) (rel : RelPath) (t : FSTree) :
    ∀ a ∈ copyPhase dst filt srcRoot dstRoot rel t, a.isDelete = false := by
  match t with
  | .node dirs files =>
    intro a ha
    simp only [copyPhase, List.mem_append] at ha
    rcases ha with (ha | ha) | ha
    · rcases List.mem_filterMap.mp ha with ⟨d, _, heq⟩
      split at heq
      · cases heq
      · injection heq with h
        rw [← h]
        rfl
    · rcases List.mem_filterMap.mp ha with ⟨fl, _, heq⟩
      cases hfind : FSTree.findFileEntry dst (rel ++ [fl.1]) with
      | some dst_stat =>
        rw [hfind] at heq
        simp only [] at heq
        split at heq
        · injection heq with h
          rw [← h]
          rfl
        · cases heq
      | none =>
        rw [hfind] at heq
        simp only [] at heq
        split at heq
        · cases heq
        · injection heq with h
          rw [← h]
          rfl
    · exact copyPhaseList_no_delete dst filt srcRoot dstRoot rel dirs a ha
theorem copyPhaseList_no_delete (dst : FSTree) (filt : RelPath → Bool)
    (srcRoot dstRoot : RelPath) (rel : RelPath) (l : List (String × FSTree)) :
    ∀ a ∈ copyPhaseList dst filt srcRoot dstRoot rel l, a.isDelete = false := by
  match l with
  | [] => intro a ha; simp [copyPhaseList] at ha
  | (n, t) :: rest =>
    intro a ha
    simp only [copyPhaseList, List.mem_append] at ha
    rcases ha with ha | ha
    · by_cases hft : filt (srcRoot ++ rel ++ [n])
      · rw [if_neg (by rw [hft]; simp)] at ha
        simp at ha
      · have hff : filt (srcRoot ++ rel ++ [n]) = false := by
          revert hft; cases filt (srcRoot ++ rel ++ [n]) <;> simp
        rw [if_pos (by rw [hff]; rfl)] at ha
        exact copyPhase_no_delete dst filt srcRoot dstRoot (rel ++ [n]) t a ha
    · exact copyPhaseList_no_delete dst filt srcRoot dstRoot rel rest a ha
end

mutual
theorem deletePhase_all_delete (srcExists filt : RelPath → Bool)
    (dstRoot rel : RelPath) (t : FSTree) :
    ∀ a ∈ deletePhase srcExists filt dstRoot rel t, a.isDelete = true := by
  match t with
  | .node dirs files =>
    intro a ha
    simp only [deletePhase, List.mem_append] at ha
    rcases ha with (ha | ha) | ha
    · exact deletePhaseList_all_delete srcExists filt dstRoot rel dirs a ha
    · rcases List.mem_filterMap.mp ha with ⟨fl, _, heq⟩
      split at heq
      · injection heq with h
        rw [← h]
        rfl
      · cases heq
    · rcases List.mem_filterMap.mp ha with ⟨d, _, heq⟩
      split at heq
      · injection heq with h
        rw [← h]
        rfl
      · cases heq
theorem deletePhaseList_all_delete (srcExists filt : RelPath → Bool)
    (dstRoot rel : RelPath) (l : List (String × FSTree)) :
    ∀ a ∈ deletePhaseList srcExists filt dstRoot rel l, a.isDelete = true := by
  match l with
  | [] => intro a ha; simp [deletePhaseList] at ha
  | (n, t) :: rest =>
    intro a ha
    simp only [deletePhaseList, List.mem_append] at ha
    rcases ha with ha | ha
    · exact deletePhase_all_delete srcExists filt dstRoot (rel ++ [n]) t a ha
    · exact deletePhaseList_all_delete srcExists filt dstRoot rel rest a ha
end

theorem delDirPath_mem {l : List SyncAction} {a : SyncAction} {x : RelPath}
    (ha : a ∈ l) (hx : a.delDirPath = some x) : SyncAction.delete_dir x ∈ l := by
  cases a with
  | delete_dir p =>
    have hp : p = x := by injection hx
    rw [← hp]
    exact ha
  | create_dir s d => cases hx
  | copy_file s d => cases hx
  | delete_file q => cases hx

theorem mem_dirDels_shape (srcExists filt : RelPath → Bool) (dstRoot rel : RelPath)
    (dirs : List (String × FSTree)) {a : SyncAction}
    (ha : a ∈ dirs.filterMap (fun d =>
      if !filt (dstRoot ++ rel ++ [d.1]) && !srcExists (rel ++ [d.1]) then
        some (SyncAction.delete_dir (dstRoot ++ rel ++ [d.1]))
      else none)) :
    ∃ nm, a = SyncAction.delete_dir ((dstRoot ++ rel) ++ [nm]) := by
  rcases List.mem_filterMap.mp ha with ⟨d, -, heq⟩
  split at heq
  · injection heq with h
    exact ⟨d.1, h.symm⟩
  · cases heq

theorem mem_fileDels_none (srcExists filt : RelPath → Bool) (dstRoot rel : RelPath)
    (files : List (String × FileEntry)) {a : SyncAction}
    (ha : a ∈ files.filterMap (fun fl =>
      if !filt (dstRoot ++ rel ++ [fl.1]) && !srcExists (rel ++ [fl.1]) then
        some (SyncAction.delete_file (dstRoot ++ rel ++ [fl.1]))
      else none)) :
    a.delDirPath = none := by
  rcases List.mem_filterMap.mp ha with ⟨fl, -, heq⟩
  split at heq
  · injection heq with h
    rw [← h]
    rfl
  · cases heq

mutual
theorem deletePhase_dir_paths (srcExists filt : RelPath → Bool)
    (dstRoot rel : RelPath) (t : FSTree) :
    ∀ x, SyncAction.delete_dir x ∈ deletePhase srcExists filt dstRoot rel t →
      leadsTo (dstRoot ++ rel) x ∧ (dstRoot ++ rel).length < x.length := by
  match t with
  | .node dirs files =>
    intro x hx
    simp only [deletePhase, List.mem_append] at hx
    rcases hx with (hx | hx) | hx
    · obtain ⟨n, -, hlead, hlen⟩ :=
        deletePhaseList_dir_paths srcExists filt dstRoot rel dirs x hx
      refine ⟨leadsTo_trans ⟨[n], rfl⟩ hlead, ?_⟩
      simp only [List.length_append, List.length_cons, List.length_nil] at hlen ⊢
      omega
    · have := mem_fileDels_none srcExists filt dstRoot rel files hx
      rw [SyncAction.delDirPath] at this
      cases this
    · obtain ⟨nm, hshape⟩ := mem_dirDels_shape srcExists filt dstRoot rel dirs hx
      have hx2 : (dstRoot ++ rel) ++ [nm] = x := by
        injection hshape with h
        exact h.symm
      refine ⟨⟨[nm], hx2⟩, ?_⟩
      rw [← hx2]
      simp
theorem deletePhaseList_dir_paths (srcExists filt : RelPath → Bool)
    (dstRoot rel : RelPath) (l : List (String × FSTree)) :
    ∀ x, SyncAction.delete_dir x ∈ deletePhaseList srcExists filt dstRoot rel l →
      ∃ n, n ∈ l.map Prod.fst ∧ leadsTo ((dstRoot ++ rel) ++ [n]) x ∧
        ((dstRoot ++ rel) ++ [n]).length < x.length := by
  match l with
  | [] => intro x hx; simp [deletePhaseList] at hx
  | (n, t) :: rest =>
    intro x hx
    simp only [deletePhaseList, List.mem_append] at hx
    rcases hx with hx | hx
    · obtain ⟨hlead, hlen⟩ :=
        deletePhase_dir_paths srcExists filt dstRoot (rel ++ [n]) t x hx
      rw [← List.append_assoc] at hlead hlen
      exact ⟨n, by simp, hlead, hlen⟩
    · obtain ⟨m, hm, h1, h2⟩ :=
        deletePhaseList_dir_paths srcExists filt dstRoot rel rest x hx
      refine ⟨m, ?_, h1, h2⟩
      simp only [List.map_cons, List.mem_cons]
      exact Or.inr hm
end

mutual
theorem deletePhase_deepFirst (srcExists filt : RelPath → Bool)
    (dstRoot rel : RelPath) (t : FSTree) (hwf : t.wfB = true) :
    (deletePhase srcExists filt dstRoot rel t).Pairwise ddOrd := by
  match t with
  | .node dirs files =>
    have hparts : (decide ((dirs.map Prod.fst).Nodup) && FSTree.wfListB dirs) = true := hwf
    have hnd : (dirs.map Prod.fst).Nodup :=
      of_decide_eq_true ((Bool.and_eq_true _ _).mp hparts).1
    have hwfl : FSTree.wfListB dirs = true := ((Bool.and_eq_true _ _).mp hparts).2
    rw [deletePhase]
    apply List.pairwise_append.mpr
    refine ⟨?_, ?_, ?_⟩
    · apply List.pairwise_append.mpr
      refine ⟨deletePhaseList_deepFirst srcExists filt dstRoot rel dirs hnd hwfl, ?_, ?_⟩
      · apply List.pairwise_of_forall_mem_list
        intro a ha b _
        exact ddOrd_of_none_left (mem_fileDels_none srcExists filt dstRoot rel files ha)
      · intro a _ b hb
        exact ddOrd_of_none_right (mem_fileDels_none srcExists filt dstRoot rel files hb)
    · apply List.pairwise_of_forall_mem_list
      intro a ha b hb
      obtain ⟨n1, rfl⟩ := mem_dirDels_shape srcExists filt dstRoot rel dirs ha
      obtain ⟨n2, rfl⟩ := mem_dirDels_shape srcExists filt dstRoot rel dirs hb
      intro x y hx hy
      have hxv : (dstRoot ++ rel) ++ [n1] = x := by injection hx
      have hyv : (dstRoot ++ rel) ++ [n2] = y := by injection hy
      rintro ⟨hl, hne⟩
      apply hne
      obtain ⟨u, hu⟩ := hl
      rw [← hxv, ← hyv] at hu
      have hulen : u.length = 0 := by
        have hcong := congrArg List.length hu
        simp only [List.length_append, List.length_cons, List.length_nil] at hcong
        omega
      have hunil : u = [] := List.eq_nil_of_length_eq_zero hulen
      rw [hunil, List.append_nil] at hu
      rw [← hxv, ← hyv]
      rw [hu]
    · intro a ha b hb
      rcases List.mem_append.mp ha with ha | ha
      · intro x y hx hy
        rintro ⟨hl, -⟩
        have hxin := delDirPath_mem ha hx
        obtain ⟨n, -, -, hlen⟩ :=
          deletePhaseList_dir_paths srcExists filt dstRoot rel dirs x hxin
        obtain ⟨n2, rfl⟩ := mem_dirDels_shape srcExists filt dstRoot rel dirs hb
        have hyv : (dstRoot ++ rel) ++ [n2] = y := by injection hy
        have hxy := leadsTo_length hl
        rw [← hyv] at hxy
        simp only [List.length_append, List.length_cons, List.length_nil] at hlen hxy
        omega
      · exact ddOrd_of_none_left (mem_fileDels_none srcExists filt dstRoot rel files ha)
theorem deletePhaseList_deepFirst (srcExists filt : RelPath → Bool)
    (dstRoot rel : RelPath) (l : List (String × FSTree))
    (hnd : (l.map Prod.fst).Nodup) (hwfl : FSTree.wfListB l = true) :
    (deletePhaseList srcExists filt dstRoot rel l).Pairwise ddOrd := by
  match l with
  | [] => rw [deletePhaseList]; exact List.Pairwise.nil
  | (n, t) :: rest =>
    have hw : (t.wfB && FSTree.wfListB rest) = true := hwfl
    have hw1 : t.wfB = true := ((Bool.and_eq_true _ _).mp hw).1
    have hw2 : FSTree.wfListB rest = true := ((Bool.and_eq_true _ _).mp hw).2
    have hnd2 : (rest.map Prod.fst).Nodup := by
      simp only [List.map_cons, List.nodup_cons] at hnd
      exact hnd.2
    have hnmem : n ∉ rest.map Prod.fst := by
      simp only [List.map_cons, List.nodup_cons] at hnd
      exact hnd.1
    rw [deletePhaseList]
    apply List.pairwise_append.mpr
    refine ⟨deletePhase_deepFirst srcExists filt dstRoot (rel ++ [n]) t hw1,
      deletePhaseList_deepFirst srcExists filt dstRoot rel rest hnd2 hw2, ?_⟩
    intro a ha b hb
    intro x y hx hy
    rintro ⟨hl, -⟩
    have hxin := delDirPath_mem ha hx
    obtain ⟨hleadx, -⟩ := deletePhase_dir_paths srcExists filt dstRoot (rel ++ [n]) t x hxin
    rw [← List.append_assoc] at hleadx
    have hyin := delDirPath_mem hb hy
    obtain ⟨m, hm, hleady, -⟩ :=
      deletePhaseList_dir_paths srcExists filt dstRoot rel rest y hyin
    have hny : leadsTo ((dstRoot ++ rel) ++ [n]) y := leadsTo_trans hleadx hl
    have hnm : n = m := leadsTo_snoc_same hny hleady
    exact hnmem (hnm ▸ hm)
end

theorem delDirPath_none_of_not_delete {a : SyncAction} (h : a.isDelete = false) :
    a.delDirPath = none := by
  cases a with
  | create_dir s d => rfl
  | copy_file s d => rfl
  | delete_file q => exact absurd h (by simp [SyncAction.isDelete])
  | delete_dir q => exact absurd h (by simp [SyncAction.isDelete])

theorem phaseOrdered_parts (l1 l2 : List SyncAction)
    (h1 : ∀ a ∈ l1, a.isDelete = false) (h2 : ∀ a ∈ l2, a.isDelete = true) :
    phaseOrdered (l1 ++ l2) := by
  apply List.pairwise_append.mpr
  refine ⟨?_, ?_, ?_⟩
  · apply List.pairwise_of_forall_mem_list
    intro a ha b _
    intro hd
    rw [h1 a ha] at hd
    cases hd
  · apply List.pairwise_of_forall_mem_list
    intro a _ b hb
    intro _
    exact h2 b hb
  · intro a _ b hb _
    exact h2 b hb

/-- C6: in every plan produced by analyze_sync, all create_dir and
copy_file actions precede all delete actions, and among the delete_dir
actions every child directory is deleted before its parent; the CLI plan
(all copies, then all file deletes, no directory actions) satisfies the
same ordering invariant. -/
theorem plan_ordering_invariant (mode : Mode) (filt : RelPath → Bool)
    (srcRoot dstRoot : RelPath) (src dst : FSTree) (hwf : dst.wfB = true) :
    phaseOrdered (analyze_sync mode filt srcRoot dstRoot src dst) ∧
    deleteDirsDeepestFirst (analyze_sync mode filt srcRoot dstRoot src dst) ∧
    ∀ (tol : ℚ) (pats : List Pattern) (csrc cdst : FS),
      phaseOrdered (cli_plan mode tol pats csrc cdst) := by
  refine ⟨?_, ?_, ?_⟩
  · rw [analyze_sync]
    apply phaseOrdered_parts
    · exact copyPhase_no_delete dst filt srcRoot dstRoot [] src
    · intro a ha
      by_cases hm : mode = Mode.mirror
      · rw [if_pos hm] at ha
        exact deletePhase_all_delete _ filt dstRoot [] dst a ha
      · rw [if_neg hm] at ha
        cases ha
  · rw [analyze_sync]
    unfold deleteDirsDeepestFirst
    apply List.pairwise_append.mpr
    refine ⟨?_, ?_, ?_⟩
    · apply List.pairwise_of_forall_mem_list
      intro a ha b _
      exact ddOrd_of_none_left (delDirPath_none_of_not_delete
        (copyPhase_no_delete dst filt srcRoot dstRoot [] src a ha))
    · by_cases hm : mode = Mode.mirror
      · rw [if_pos hm]
        exact deletePhase_deepFirst (fun r => src.existsAt r) filt dstRoot [] dst hwf
      · rw [if_neg hm]
        exact List.Pairwise.nil
    · intro a ha b _
      exact ddOrd_of_none_left (delDirPath_none_of_not_delete
        (copyPhase_no_delete dst filt srcRoot dstRoot [] src a ha))
  · intro tol pats csrc cdst
    apply phaseOrdered_parts
    · intro a ha
      rcases List.mem_map.mp ha with ⟨e, -, rfl⟩
      rfl
    · intro a ha
      rcases List.mem_map.mp ha with ⟨q, -, rfl⟩
      rfl

/-- Witness for C6: the ordering invariant holds on the concrete mirror
plan that deletes a nested directory chain. -/
theorem plan_ordering_invariant_witness :
    phaseOrdered (analyze_sync Mode.mirror (fun _ => false) ["S"] ["D"] treeEmpty treeDst) ∧
    deleteDirsDeepestFirst
      (analyze_sync Mode.mirror (fun _ => false) ["S"] ["D"] treeEmpty treeDst) ∧
    ∀ (tol : ℚ) (pats : List Pattern) (csrc cdst : FS),
      phaseOrdered (cli_plan Mode.mirror tol pats csrc cdst) :=
  plan_ordering_invariant Mode.mirror (fun _ => false) ["S"] ["D"] treeEmpty treeDst
    (by decide)

/-- C3: update mode plans no deletion in either engine, and applying an
update-mode run removes no destination file and no destination
directory. -/
theorem update_mode_no_deletions :
    (∀ (pats : List Pattern) (src dst : FS), deleted_files Mode.update pats src dst = []) ∧
    (∀ (filt : RelPath → Bool) (srcRoot dstRoot : RelPath) (src dst : FSTree),
      ∀ a ∈ analyze_sync Mode.update filt srcRoot dstRoot src dst, a.isDelete = false) ∧
    (∀ (tol : ℚ) (pats : List Pattern) (src dst : FS) (p : RelPath),
      p ∈ dst.files.map Prod.fst →
      p ∈ (run_sync_fs Mode.update tol pats src dst).files.map Prod.fst) ∧
    (∀ (tol : ℚ) (pats : List Pattern) (src dst : FS) (d : RelPath),
      d ∈ dst.dirs → d ∈ (run_sync_fs Mode.update tol pats src dst).dirs) := by
  refine ⟨fun pats src dst => rfl, ?_, ?_, ?_⟩
  · intro filt srcRoot dstRoot src dst a ha
    rw [analyze_sync, if_neg (fun hc => Mode.noConfusion hc), List.append_nil] at ha
    exact copyPhase_no_delete dst filt srcRoot dstRoot [] src a ha
  · intro tol pats src dst p hp
    have h1 := keys_applyCopies dst.files (changed_files tol pats src dst) p hp
    rcases List.mem_map.mp h1 with ⟨e, he, hep⟩
    refine List.mem_map.mpr ⟨e, ?_, hep⟩
    have hface : (run_sync_fs Mode.update tol pats src dst).files =
        (applyCopies dst.files (changed_files tol pats src dst)).filter
          (fun e => !decide (e.1 ∈ deleted_files Mode.update pats src dst)) := rfl
    rw [hface]
    apply List.mem_filter.mpr
    refine ⟨he, ?_⟩
    simp [deleted_files]
  · intro tol pats src dst d hd
    have hdirs : (run_sync_fs Mode.update tol pats src dst).dirs =
        applyMkdirs dst.dirs (changed_files tol pats src dst) := rfl
    rw [hdirs, applyMkdirs]
    exact List.mem_dedup.mpr (List.mem_append_left _ hd)

/-- Witness for C3: concrete update runs keep the stale destination file
b.txt and the destination directory d. -/
theorem update_mode_no_deletions_witness :
    deleted_files Mode.update [] fsB12 fsB10 = [] ∧
    (∀ a ∈ analyze_sync Mode.update (fun _ => false) ["S"] ["D"] treeEmpty treeDst,
      a.isDelete = false) ∧
    ["b.txt"] ∈ (run_sync_fs Mode.update 1 [] fsB12 fsB10).files.map Prod.fst ∧
    ["d"] ∈ (run_sync_fs Mode.update 1 [] fsB12 fsDirD).dirs :=
  ⟨update_mode_no_deletions.1 [] fsB12 fsB10,
   update_mode_no_deletions.2.1 (fun _ => false) ["S"] ["D"] treeEmpty treeDst,
   update_mode_no_deletions.2.2.1 1 [] fsB12 fsB10 ["b.txt"] (by decide),
   update_mode_no_deletions.2.2.2 1 [] fsB12 fsDirD ["d"] (by decide)⟩
